import Mathlib

/-
Shallow embedding of the hugs static-site engine.

The definitions below are translated from the Rust sources:
  * src/build.rs   — `url_to_output_path`
  * src/run.rs     — scanner / dynamic-route resolver / expander / cache-bust
                     registry / frontmatter re-rendering

Strings are modelled as Lean `String` (a wrapper around `List Char`), paths as
the strings Rust produces via `to_string_lossy` on relative paths.  External
collaborators (the minijinja template evaluator, the SHA-256 digest, the
filesystem) are abstracted as function parameters, never implemented from the
spec's words unless explicitly marked.
-/

namespace Hugs

/-! ### Character-list utilities (Rust `str` primitives) -/

/-- Rust `str::trim_start_matches('/')`: drop all leading `/` characters. -/
def ltrimSlash : List Char → List Char
  | [] => []
  | c :: cs => if c = '/' then ltrimSlash cs else c :: cs

/-- Rust `str::trim_matches('/')`: drop all leading and trailing `/`
characters.  Implemented as a leading trim followed by a leading trim of the
reversal. -/
def trimSlash (l : List Char) : List Char :=
  (ltrimSlash (ltrimSlash l).reverse).reverse

/-- String wrapper for `ltrimSlash`. -/
def strLtrimSlash (s : String) : String := ⟨ltrimSlash s.data⟩

/-- String wrapper for `trimSlash`. -/
def strTrimSlash (s : String) : String := ⟨trimSlash s.data⟩

/-- Rust `str::ends_with('/')`. -/
def endsSlash (s : String) : Bool := s.data.getLast? = some '/'

/-- Rust `PathBuf::join` with a relative right-hand operand: a `/` separator
is pushed unless the left side is empty or already ends with `/`. -/
def pathJoin (a b : String) : String :=
  if a = "" then b
  else if a.data.getLast? = some '/' then a ++ b
  else a ++ "/" ++ b

/-! ### `url_to_output_path` (src/build.rs lines 205–217) -/

/-- src/build.rs `url_to_output_path`: map a page URL to the output file the
build writes.  `/` goes to `index.html`, a URL with a trailing slash is
trimmed on both sides and gets `/index.html` under it, any other URL is
trimmed of leading slashes and gets `/index.html` under it. -/
def url_to_output_path (url : String) (output_path : String) : String :=
  if url = "/" then pathJoin output_path "index.html"
  else if endsSlash url then
    pathJoin (pathJoin output_path (strTrimSlash url)) "index.html"
  else
    pathJoin (pathJoin output_path (strLtrimSlash url)) "index.html"

/-! ### Scanner URL conversion (src/run.rs lines 1737–1751) -/

/-- Helper for Rust `Path::with_extension("")`: given the *reversed*
characters of a file name, return the reversed stem when the name has an
extension (a `.` that is not the first character of the name), else `none`
(hidden files like `.md` have no extension and are left untouched). -/
def revDropExt : List Char → Option (List Char)
  | [] => none
  | c :: rest =>
    if c = '.' then (if rest.isEmpty then none else some rest)
    else revDropExt rest

/-- Rust `path.with_extension("").to_string_lossy()` for a relative path
string: remove the extension of the final path component, if it has one. -/
def withExtRemoved (path : String) : String :=
  let r := path.data.reverse
  let rname := r.takeWhile (fun c => c ≠ '/')
  let rrest := r.dropWhile (fun c => c ≠ '/')
  match revDropExt rname with
  | some stemRev => ⟨(stemRev ++ rrest).reverse⟩
  | none => path

/-- Rust `str::ends_with` for string suffixes. -/
def strEndsWith (s suf : String) : Bool :=
  suf.data.reverse.isPrefixOf s.data.reverse

/-- Rust `path_str.strip_suffix("/index").unwrap_or(&path_str)`. -/
def stripSlashIndex (s : String) : String :=
  if strEndsWith s "/index" then ⟨(s.data.reverse.drop 6).reverse⟩ else s

/-- The three-way URL rule shared (textually duplicated in the Rust source)
by `convert_file_path_to_url` (src/run.rs 1740–1750) and
`generate_dynamic_url` (src/run.rs 1557–1563): the stripped path `index`
maps to `/`, a stripped path ending in `/index` maps to the directory with a
trailing slash, everything else gets a leading slash. -/
def urlFromPathStr (path_str : String) : String :=
  if path_str = "index" then "/"
  else if strEndsWith path_str "/index" then "/" ++ stripSlashIndex path_str ++ "/"
  else "/" ++ path_str

/-- src/run.rs `convert_file_path_to_url`: `index.md` at the root maps to
`/`, `<dir>/index.md` maps to `/<dir>/`, everything else to the
extension-stripped path with a leading slash. -/
def convert_file_path_to_url (path : String) : String :=
  urlFromPathStr (withExtRemoved path)

/-! ### YAML values (serde_yaml::Value) -/

/-- serde_yaml::Value.  Floats are abstracted by their rendered literal text
(no claim depends on float arithmetic); mappings are ordered key/value lists,
matching serde_yaml's insertion-ordered `Mapping`. -/
inductive YamlValue where
  | null : YamlValue
  | bool (b : Bool) : YamlValue
  | int (n : Int) : YamlValue
  | float (lit : String) : YamlValue
  | str (s : String) : YamlValue
  | seq (items : List YamlValue) : YamlValue
  | map (entries : List (YamlValue × YamlValue)) : YamlValue
deriving Repr

mutual

/-- Structural equality on `YamlValue` (Rust `PartialEq` on serde_yaml values,
with floats compared through their abstracted literal text). -/
def YamlValue.beq : YamlValue → YamlValue → Bool
  | .null, .null => true
  | .bool x, .bool y => x == y
  | .int x, .int y => x == y
  | .float x, .float y => x == y
  | .str x, .str y => x == y
  | .seq xs, .seq ys => YamlValue.beqList xs ys
  | .map xs, .map ys => YamlValue.beqPairs xs ys
  | _, _ => false

/-- Elementwise `YamlValue.beq` on sequences. -/
def YamlValue.beqList : List YamlValue → List YamlValue → Bool
  | [], [] => true
  | x :: xs, y :: ys => YamlValue.beq x y && YamlValue.beqList xs ys
  | _, _ => false

/-- Pairwise `YamlValue.beq` on mapping entries. -/
def YamlValue.beqPairs :
    List (YamlValue × YamlValue) → List (YamlValue × YamlValue) → Bool
  | [], [] => true
  | (k1, v1) :: xs, (k2, v2) :: ys =>
    YamlValue.beq k1 k2 && YamlValue.beq v1 v2 && YamlValue.beqPairs xs ys
  | _, _ => false

end

/-- `serde_yaml::Mapping::insert` (IndexMap semantics): replace the value in
place when the key is present, append the pair otherwise. -/
def mapInsert (entries : List (YamlValue × YamlValue)) (k v : YamlValue) :
    List (YamlValue × YamlValue) :=
  if entries.any (fun e => YamlValue.beq e.1 k) then
    entries.map (fun e => if YamlValue.beq e.1 k then (e.1, v) else e)
  else entries ++ [(k, v)]

/-- src/run.rs `yaml_value_to_string` (lines 1540–1547).  The `{:?}` Debug
fallback for null/sequence/mapping is abstracted by a constant tag per
constructor; no claim exercises that branch. -/
def yaml_value_to_string : YamlValue → String
  | .str s => s
  | .int n => toString n
  | .float lit => lit
  | .bool b => if b then "true" else "false"
  | .null => "Null"
  | .seq _ => "Sequence"
  | .map _ => "Mapping"

/-! ### Dynamic URL generation and page expansion (src/run.rs 1550–1592) -/

/-- Fuel-indexed worker for `replaceAll` (structural recursion so concrete
instances reduce definitionally; the fuel is always at least the input
length, see `replaceAll`). -/
def replaceAllF : Nat → List Char → List Char → List Char → List Char
  | 0, l, _, _ => l
  | _ + 1, [], _, _ => []
  | fuel + 1, c :: cs, pat, rep =>
    if pat ≠ [] ∧ pat.isPrefixOf (c :: cs) then
      rep ++ replaceAllF fuel ((c :: cs).drop pat.length) pat rep
    else
      c :: replaceAllF fuel cs pat rep

/-- Rust `str::replace`: leftmost, non-overlapping replacement of every
occurrence of `pat` by `rep`.  (For the empty pattern Rust inserts `rep`
between characters; the pattern here is always `"[" ++ name ++ "]"`, which is
nonempty, so that case is unreachable and modelled as the identity.) -/
def replaceAll (l pat rep : List Char) : List Char :=
  replaceAllF l.length l pat rep

/-- src/run.rs `generate_dynamic_url`: strip the extension from the source
path, substitute the `[param]` placeholder by the stringified value, then
apply the same three-way URL rule as the scanner. -/
def generate_dynamic_url (source_path param_name : String) (value : YamlValue) :
    String :=
  let path_str := withExtRemoved source_path
  let placeholder := "[" ++ param_name ++ "]"
  let value_str := yaml_value_to_string value
  urlFromPathStr ⟨replaceAll path_str.data placeholder.data value_str.data⟩

/-! ### Page data model (src/run.rs) -/

/-- Rust `str::starts_with` for string arguments. -/
def strStartsWith (s pre : String) : Bool := pre.data.isPrefixOf s.data

/-- Substring occurrence on character lists. -/
def listContains : List Char → List Char → Bool
  | [], pat => pat.isEmpty
  | c :: cs, pat => pat.isPrefixOf (c :: cs) || listContains cs pat

/-- Rust `str::contains` for string arguments (substring occurrence). -/
def strContains (s pat : String) : Bool := listContains s.data pat.data

/-- Rust `Path::file_name` rendered as a string, for the file paths the
scanner processes (relative paths of `*.md` files, which always have a
nonempty final component): the characters after the last `/`. -/
def fileName (path : String) : String :=
  ⟨(path.data.reverse.takeWhile (fun c => c ≠ '/')).reverse⟩

/-- src/run.rs `PageInfo`: one concrete page (static or expanded-dynamic). -/
structure PageInfo where
  url : String
  file_path : String
  frontmatter : YamlValue
deriving Repr

/-- src/run.rs `RawDynamicPageDef`: a dynamic definition before its
parameter values are resolved. -/
structure RawDynamicPageDef where
  param_name : String
  source_path : String
  frontmatter : YamlValue
  file_content : String
deriving Repr

/-- src/run.rs `DynamicPageDef`: a dynamic definition with resolved values. -/
structure DynamicPageDef where
  param_name : String
  source_path : String
  param_values : List YamlValue
  frontmatter : YamlValue
deriving Repr

/-- src/run.rs `expand_dynamic_pages` (lines 1567–1592): cross-product each
definition with its resolved values; each record gets the generated URL, the
definition's source path, and the definition's frontmatter with the resolved
value inserted under the parameter's key (a non-mapping frontmatter is kept
unchanged, mirroring the `if let Mapping` guard). -/
def expand_dynamic_pages (dynamic_defs : List DynamicPageDef) : List PageInfo :=
  dynamic_defs.flatMap (fun d =>
    d.param_values.map (fun value =>
      { url := generate_dynamic_url d.source_path d.param_name value
        file_path := d.source_path
        frontmatter :=
          match d.frontmatter with
          | .map m => .map (mapInsert m (.str d.param_name) value)
          | fm => fm }))

/-! ### The `pages(within?)` accessor (src/run.rs lines 49–75) -/

/-- src/run.rs `create_pages_function`: the `pages(within?)` template
accessor over a fixed page collection.  Without `within` it returns the whole
collection; with a `within` prefix it keeps the pages whose URL starts with
the prefix, excluding the directory-index URL (the prefix with a trailing
slash appended unless already present). -/
def pagesFunction (pages : List PageInfo) (within : Option String) :
    List PageInfo :=
  match within with
  | none => pages
  | some pre =>
    let index_url := if endsSlash pre then pre else pre ++ "/"
    pages.filter (fun page => strStartsWith page.url pre && page.url != index_url)

/-! ### Scanner (src/run.rs lines 1117–1131 and 1759–1855) -/

/-- src/run.rs `is_dynamic_page`: the file name starts with `[` and ends
with `].md`. -/
def is_dynamic_page (path : String) : Bool :=
  strStartsWith (fileName path) "[" && strEndsWith (fileName path) "].md"

/-- src/run.rs `extract_param_name`: strip a leading `[` and a trailing
`].md` from a file name. -/
def extract_param_name (filename : String) : Option String :=
  match filename.data with
  | '[' :: rest =>
    if "].md".data.reverse.isPrefixOf rest.reverse then
      some ⟨(rest.reverse.drop 4).reverse⟩
    else none
  | _ => none

/-- One file reaching the scanner's per-file task: its path relative to the
site root and the outcome of reading it (`none` models an I/O failure). -/
structure ScannedFile where
  relative_path : String
  content : Option String
deriving Repr

/-- src/run.rs `ParsedPage`. -/
inductive ParsedPage where
  | static (page : PageInfo) : ParsedPage
  | rawDynamic (d : RawDynamicPageDef) : ParsedPage
deriving Repr

/-- src/run.rs `RawScanResult`. -/
structure RawScanResult where
  static_pages : List PageInfo
  raw_dynamic_defs : List RawDynamicPageDef
deriving Repr

/-- The per-file task body of `scan_pages_raw` (src/run.rs 1788–1835).
`parseFM` abstracts `markdown_frontmatter::parse` (`none` = parse failure);
on read failure the file is dropped (`none`); on frontmatter-parse failure
the page falls back to the empty mapping.  The task's value is
`Option (Result ParsedPage)` exactly as in the source; no branch constructs
an error. -/
def scanOneFile (parseFM : String → Option YamlValue) (f : ScannedFile) :
    Option (Except Unit ParsedPage) :=
  match f.content with
  | none => none
  | some content =>
    let fm := (parseFM content).getD (.map [])
    if is_dynamic_page f.relative_path then
      match extract_param_name (fileName f.relative_path) with
      | none => none
      | some pname =>
        some (.ok (.rawDynamic ⟨pname, f.relative_path, fm, content⟩))
    else
      some (.ok (.static
        ⟨convert_file_path_to_url f.relative_path, f.relative_path, fm⟩))

/-- The fan-in loop of `scan_pages_raw` (src/run.rs 1838–1854): `None` task
results are skipped, an `Err` would abort the scan through `?`, parsed pages
are partitioned into the two buckets. -/
def collectScan : List (Option (Except Unit ParsedPage)) →
    Except Unit RawScanResult
  | [] => .ok ⟨[], []⟩
  | none :: rest => collectScan rest
  | some (.error e) :: _ => .error e
  | some (.ok p) :: rest =>
    (collectScan rest).map (fun r =>
      match p with
      | .static pg => ⟨pg :: r.static_pages, r.raw_dynamic_defs⟩
      | .rawDynamic d => ⟨r.static_pages, d :: r.raw_dynamic_defs⟩)

/-- src/run.rs `scan_pages_raw`, phases 2–3 (the per-file fan-out over the
already-filtered file list, then the fan-in). -/
def scan_pages_raw (parseFM : String → Option YamlValue)
    (files : List ScannedFile) : Except Unit RawScanResult :=
  collectScan (files.map (scanOneFile parseFM))

/-! ### Scalar re-parsing of expression output (src/run.rs lines 1333–1385) -/

/-- ASCII whitespace (the fragment of Rust `char::is_whitespace` that can
occur in the newline-split, ASCII-rendered expression output). -/
def isWS (c : Char) : Bool := c = ' ' || c = '\t' || c = '\n' || c = '\r'

/-- Rust `str::trim` (restricted to ASCII whitespace, see `isWS`). -/
def rustTrim (s : String) : String :=
  ⟨((s.data.dropWhile isWS).reverse.dropWhile isWS).reverse⟩

/-- Drop one trailing carriage return (Rust `str::lines` strips `\r\n`). -/
def dropCR (l : List Char) : List Char :=
  match l.reverse with
  | '\r' :: r => r.reverse
  | _ => l

/-- Rust `str::lines`: split on `\n`, strip one trailing `\r` per line, and
produce no final empty line when the string ends with `\n`. -/
def rustLines (s : String) : List String :=
  if s = "" then []
  else
    let parts := s.data.splitOn '\n'
    let parts := if s.data.getLast? = some '\n' then parts.dropLast else parts
    parts.map (fun l => ⟨dropCR l⟩)

/-- All-decimal-digits test on a nonempty character list. -/
def allDigits (l : List Char) : Bool := !l.isEmpty && l.all (fun c => c.isDigit)

/-- Decimal value of a digit list. -/
def digitsVal (l : List Char) : Nat :=
  l.foldl (fun acc c => acc * 10 + (c.toNat - '0'.toNat)) 0

/-- Rust `str::parse::<i64>`: optional sign, one or more ASCII digits,
value within the i64 range. -/
def parseI64 (s : String) : Option Int :=
  let (sign, rest) :=
    match s.data with
    | '+' :: r => ((1 : Int), r)
    | '-' :: r => ((-1 : Int), r)
    | r => ((1 : Int), r)
  if allDigits rest then
    let v : Int := sign * (digitsVal rest : Int)
    if -(2 ^ 63) ≤ v ∧ v ≤ 2 ^ 63 - 1 then some v else none
  else none

/-- Split a character list at the first exponent marker `e`/`E`. -/
def splitExpMarker : List Char → (List Char × Option (List Char))
  | [] => ([], none)
  | c :: cs =>
    if c = 'e' || c = 'E' then ([], some cs)
    else
      let (m, e) := splitExpMarker cs
      (c :: m, e)

/-- Mantissa grammar of Rust `str::parse::<f64>`:
`Digit+ ('.' Digit*)?` or `'.' Digit+`. -/
def mantissaOk (m : List Char) : Bool :=
  let pre := m.takeWhile (fun c => c ≠ '.')
  match m.dropWhile (fun c => c ≠ '.') with
  | [] => allDigits pre
  | _ :: frac =>
    if pre.isEmpty then allDigits frac
    else allDigits pre && frac.all (fun c => c.isDigit)

/-- Exponent grammar of Rust `str::parse::<f64>`: optional sign then
one or more digits. -/
def exponentOk (e : List Char) : Bool :=
  match e with
  | '+' :: r => allDigits r
  | '-' :: r => allDigits r
  | r => allDigits r

/-- Recognizer for Rust `str::parse::<f64>`: optional sign, then
`inf`/`infinity`/`nan` (case-insensitive) or a decimal number with optional
exponent.  Only acceptance matters to the claims; the float value itself is
abstracted (see `YamlValue.float`). -/
def floatParses (s : String) : Bool :=
  let body :=
    match s.data with
    | '+' :: r => r
    | '-' :: r => r
    | r => r
  let low := body.map Char.toLower
  if low = "inf".data || low = "infinity".data || low = "nan".data then true
  else
    let (m, e) := splitExpMarker body
    mantissaOk m && (match e with | none => true | some ex => exponentOk ex)

/-- src/run.rs lines 1368–1382: best-effort scalar re-parse of one output
line — i64, else f64, else the boolean literals, else the trimmed string. -/
def parseScalarLine (line : String) : YamlValue :=
  let trimmed := rustTrim line
  match parseI64 trimmed with
  | some i => .int i
  | none =>
    if floatParses trimmed then .float trimmed
    else if trimmed = "true" then .bool true
    else if trimmed = "false" then .bool false
    else .str trimmed

/-- src/run.rs lines 1364–1383: split the rendered expression output into
lines, drop empty ones, re-parse each. -/
def parseExprOutput (output : String) : List YamlValue :=
  ((rustLines output).filter (fun l => l ≠ "")).map parseScalarLine

/-- src/run.rs lines 1334–1339: strip a `\x7b\x7b … \x7d\x7d` wrapper from
the expression if present (users may write either form). -/
def stripBraces (expr : String) : String :=
  let t := rustTrim expr
  if strStartsWith t "\x7b\x7b" && strEndsWith t "\x7d\x7d" then
    rustTrim ⟨(t.data.drop 2).reverse.drop 2 |>.reverse⟩
  else t

/-! ### Dynamic route resolution (src/run.rs 1135–1394 and 1858–1882) -/

/-- `serde_yaml::Mapping::get` with a `YamlValue` key. -/
def lookupYaml (entries : List (YamlValue × YamlValue)) (k : YamlValue) :
    Option YamlValue :=
  (entries.find? (fun e => YamlValue.beq e.1 k)).map (fun e => e.2)

/-- Error taxonomy of `evaluate_param_values_with_pages` (the three
`HugsError` variants it can produce). -/
inductive ParamError where
  | missingParam
  | exprEval
  | wrongShape
deriving Repr, DecidableEq

/-- src/run.rs `evaluate_param_values_with_pages` (lines 1135–1394).  The
minijinja evaluation of a wrapped string expression is abstracted by
`evalExpr`, which receives the page collection that the environment's
`pages()` accessor closes over and the cleaned expression text, and returns
the rendered newline-delimited output (or a render error). -/
def evaluate_param_values_with_pages
    (evalExpr : List PageInfo → String → Except Unit String)
    (param_name : String) (frontmatter : YamlValue)
    (pages : List PageInfo) : Except ParamError (List YamlValue) :=
  match frontmatter with
  | .map entries =>
    match lookupYaml entries (.str param_name) with
    | none => .error .missingParam
    | some (.seq s) => .ok s
    | some (.str expr) =>
      match evalExpr pages (stripBraces expr) with
      | .error _ => .error .exprEval
      | .ok output => .ok (parseExprOutput output)
    | some _ => .error .wrongShape
  | _ => .error .missingParam

/-- src/run.rs `evaluate_dynamic_defs` (lines 1858–1882): every raw
definition is evaluated against the *same* page collection `pages`; the
first error aborts. -/
def evaluate_dynamic_defs
    (evalExpr : List PageInfo → String → Except Unit String)
    (raw_defs : List RawDynamicPageDef) (pages : List PageInfo) :
    Except ParamError (List DynamicPageDef) :=
  raw_defs.mapM (fun raw =>
    (evaluate_param_values_with_pages evalExpr raw.param_name raw.frontmatter
        pages).map
      (fun vals =>
        { param_name := raw.param_name
          source_path := raw.source_path
          param_values := vals
          frontmatter := raw.frontmatter }))

/-- src/run.rs `AppData::load`, phase-2 slice (lines 809–825): the dynamic
definitions are evaluated against the static pages from the scan, expanded,
and the expanded pages are appended to the static pages. -/
def loadPages (evalExpr : List PageInfo → String → Except Unit String)
    (static_pages : List PageInfo) (raw_defs : List RawDynamicPageDef) :
    Except ParamError (List DynamicPageDef × List PageInfo) :=
  (evaluate_dynamic_defs evalExpr raw_defs static_pages).map
    (fun defs => (defs, static_pages ++ expand_dynamic_pages defs))

/-- The evaluation order that claim C2 describes (spec wording: the accessor
"returns the static+already-resolved pages"): the k-th definition would see
the static pages together with the expanded pages of the earlier
definitions. -/
def evaluate_dynamic_defs_accum
    (evalExpr : List PageInfo → String → Except Unit String)
    (raw_defs : List RawDynamicPageDef) (pages : List PageInfo) :
    Except ParamError (List DynamicPageDef) :=
  match raw_defs with
  | [] => .ok []
  | raw :: rest =>
    match evaluate_param_values_with_pages evalExpr raw.param_name
        raw.frontmatter pages with
    | .error e => .error e
    | .ok vals =>
      let d : DynamicPageDef :=
        { param_name := raw.param_name
          source_path := raw.source_path
          param_values := vals
          frontmatter := raw.frontmatter }
      (evaluate_dynamic_defs_accum evalExpr rest
          (pages ++ expand_dynamic_pages [d])).map (fun ds => d :: ds)

/-! ### Cache-bust registry (src/run.rs lines 129–197) -/

/-- Lowercase hexadecimal digits. -/
def hexChars : List Char := "0123456789abcdef".data

/-- One hex digit (the index is always reduced mod 16, matching nibble
extraction on a byte). -/
def hexDigit (n : Nat) : Char := hexChars.getD (n % 16) '0'

/-- `hex::encode` on a byte list: high nibble then low nibble per byte. -/
def hexEncode (bytes : List Nat) : List Char :=
  bytes.flatMap (fun b => [hexDigit (b / 16), hexDigit (b % 16)])

/-- src/run.rs `compute_content_hash` (lines 183–188): hex-encode the first
4 bytes (8 hex characters) of the digest.  SHA-256 itself is an external
collaborator abstracted by `digest` (a 32-byte output). -/
def compute_content_hash (digest : List Nat → List Nat)
    (content : List Nat) : String :=
  ⟨hexEncode ((digest content).take 4)⟩

/-- src/run.rs `insert_hash_into_path` (lines 191–197): splice `.hash`
immediately before the last `.` of the whole path string (`rfind('.')`), or
append `.hash` when the path has no dot. -/
def insert_hash_into_path (path hash : String) : String :=
  let r := path.data.reverse
  match r.dropWhile (fun c => c ≠ '.') with
  | [] => path ++ "." ++ hash
  | _ :: moreRev =>
    ⟨moreRev.reverse⟩ ++ "." ++ hash ++ "." ++
      ⟨(r.takeWhile (fun c => c ≠ '.')).reverse⟩

/-- The splice rule as claim C5 words it ("immediately before the last
extension … or appended when the path has no extension"): the extension of
the final path component (Rust `Path::extension` semantics: a dot that is
not the component's first character), not the last dot of the whole string. -/
def spliceBeforeExt (path hash : String) : String :=
  let r := path.data.reverse
  let rname := r.takeWhile (fun c => c ≠ '/')
  match revDropExt rname with
  | none => path ++ "." ++ hash
  | some stemRev =>
    ⟨((rname.take (rname.length - stemRev.length - 1)).reverse)⟩
      |> (fun ext =>
        ⟨(stemRev ++ r.dropWhile (fun c => c ≠ '/')).reverse⟩ ++ "." ++ hash
          ++ "." ++ ext)

/-- Registry lookup (the `HashMap<String, String>` behind the mutex,
modelled as an association list). -/
def regLookup (reg : List (String × String)) (path : String) : Option String :=
  (reg.find? (fun e => e.1 == path)).map (fun e => e.2)

/-- src/run.rs `CacheBustFunction::to_minijinja_fn` body (lines 135–178), in
state-passing form over the registry.  `theme_css` and `highlight_css` are
the two virtual in-memory assets; `readFile` abstracts the filesystem read
(`none` = I/O failure, surfaced as a template error); `digest` abstracts
SHA-256. -/
def cacheBustCall (digest : List Nat → List Nat)
    (theme_css highlight_css : List Nat)
    (readFile : String → Option (List Nat))
    (reg : List (String × String)) (path : String) :
    Except Unit (String × List (String × String)) :=
  match regLookup reg path with
  | some hashed => .ok (hashed, reg)
  | none =>
    let contentOpt : Option (List Nat) :=
      if path = "/theme.css" then some theme_css
      else if path = "/highlight.css" then some highlight_css
      else readFile path
    match contentOpt with
    | none => .error ()
    | some content =>
      let hash := compute_content_hash digest content
      let hashed_path := insert_hash_into_path path hash
      .ok (hashed_path, (path, hashed_path) :: reg)

/-! ### Static page resolution (src/run.rs lines 1907–1934) -/

/-- src/run.rs `resolve_path_to_doc`, the path-resolution head (lines
1911–1929): try `<path>.md`; if absent and the effective path is not
`index`, try `<path>/index.md`; otherwise not found.  `fsExists` abstracts
`Path::exists`. -/
def resolvePathToFile (fsExists : String → Bool) (site_path path : String) :
    Option String :=
  let check_path := if path = "" then "index" else path
  let p1 := pathJoin site_path (check_path ++ ".md")
  if fsExists p1 then some p1
  else if check_path ≠ "index" then
    let p2 := pathJoin site_path (check_path ++ "/index.md")
    if fsExists p2 then some p2 else none
  else none

/-- The resolution rule as claim C7 words it: always try the two file
conventions `<path>.md` then `<path>/index.md` in order and return the first
that exists. -/
def resolveTwoConventions (fsExists : String → Bool) (site_path path : String) :
    Option String :=
  let check_path := if path = "" then "index" else path
  [pathJoin site_path (check_path ++ ".md"),
   pathJoin site_path (check_path ++ "/index.md")].find? fsExists

/-! ### Frontmatter re-rendering for dynamic pages (src/run.rs 1419–1491) -/

/-- Rust `s.contains("\x7b\x7b") || s.contains("\x7b%")`: the heuristic for
"this string may contain template syntax". -/
def hasTemplateMarker (s : String) : Bool :=
  strContains s "\x7b\x7b" || strContains s "\x7b%"

mutual

/-- src/run.rs `render_yaml_value` (lines 1457–1491): strings containing a
template marker are re-rendered (the minijinja render with the dynamic
parameter context is abstracted by `render`); everything else is preserved,
recursing through sequences and mappings. -/
def render_yaml_value (render : String → Except Unit String) :
    YamlValue → Except Unit YamlValue
  | .str s =>
    if hasTemplateMarker s then (render s).map .str
    else .ok (.str s)
  | .seq items => (renderYamlSeq render items).map .seq
  | .map entries => (renderYamlEntries render entries).map .map
  | v => .ok v

/-- Elementwise `render_yaml_value` over a sequence. -/
def renderYamlSeq (render : String → Except Unit String) :
    List YamlValue → Except Unit (List YamlValue)
  | [] => .ok []
  | v :: vs =>
    (render_yaml_value render v).bind (fun rv =>
      (renderYamlSeq render vs).map (fun rvs => rv :: rvs))

/-- Valuewise `render_yaml_value` over mapping entries (keys cloned
unchanged, insertion order preserved — parsed YAML mappings have distinct
keys, so the IndexMap insert loop is an order-preserving traversal). -/
def renderYamlEntries (render : String → Except Unit String) :
    List (YamlValue × YamlValue) → Except Unit (List (YamlValue × YamlValue))
  | [] => .ok []
  | (k, v) :: rest =>
    (render_yaml_value render v).bind (fun rv =>
      (renderYamlEntries render rest).map (fun rr => (k, rv) :: rr))

end

/-- src/run.rs `render_frontmatter_values` (lines 1419–1454): non-mapping
frontmatter is returned unchanged; otherwise every entry's value is
re-rendered with the key kept as is. -/
def render_frontmatter_values (render : String → Except Unit String)
    (frontmatter : YamlValue) : Except Unit YamlValue :=
  match frontmatter with
  | .map entries => (renderYamlEntries render entries).map .map
  | fm => .ok fm

mutual

/-- No string anywhere in the value contains a template marker. -/
def noTemplate : YamlValue → Bool
  | .str s => !hasTemplateMarker s
  | .seq items => noTemplateList items
  | .map entries => noTemplateEntries entries
  | _ => true

/-- `noTemplate` over a sequence. -/
def noTemplateList : List YamlValue → Bool
  | [] => true
  | v :: vs => noTemplate v && noTemplateList vs

/-- `noTemplate` over mapping entries (values only, as the render loop only
renders values). -/
def noTemplateEntries : List (YamlValue × YamlValue) → Bool
  | [] => true
  | (_, v) :: rest => noTemplate v && noTemplateEntries rest

end

/-- The evaluation that the amended claim C2 describes: every definition is
evaluated against the same static page collection (explicit recursion form
of the `mapM` in `evaluate_dynamic_defs`). -/
def evaluate_dynamic_defs_staticOnly
    (evalExpr : List PageInfo → String → Except Unit String)
    (raw_defs : List RawDynamicPageDef) (pages : List PageInfo) :
    Except ParamError (List DynamicPageDef) :=
  match raw_defs with
  | [] => .ok []
  | raw :: rest =>
    match evaluate_param_values_with_pages evalExpr raw.param_name
        raw.frontmatter pages with
    | .error e => .error e
    | .ok vals =>
      (evaluate_dynamic_defs_staticOnly evalExpr rest pages).map
        (fun ds =>
          { param_name := raw.param_name
            source_path := raw.source_path
            param_values := vals
            frontmatter := raw.frontmatter } :: ds)

/-- The separator-aware prefix that `pathJoin` prepends to its second
argument, at the character-list level (proof-normal form of `pathJoin`). -/
def joinData (a b : List Char) : List Char :=
  (if a = [] then [] else if a.getLast? = some '/' then a else a ++ ['/']) ++ b

/-- The tail `url_to_output_path` hangs under the output directory, as a
function of the both-ends-trimmed URL (proof-normal form). -/
def outTailData (c : List Char) : List Char :=
  if c = [] then "index.html".data else c ++ "/index.html".data

/-! ### Basic helper lemmas -/

theorem strDataInj {s t : String} (h : s.data = t.data) : s = t := by
  cases s
  cases t
  exact congrArg String.mk h

theorem strDataNe {s t : String} (h : s.data ≠ t.data) : s ≠ t :=
  fun he => h (congrArg String.data he)

theorem strEmptyIff {s : String} : s = "" ↔ s.data = [] :=
  ⟨fun h => by rw [h], fun h => strDataInj h⟩

theorem isPrefixOf_append_self (l t : List Char) :
    l.isPrefixOf (l ++ t) = true := by
  induction l with
  | nil => simp [List.isPrefixOf]
  | cons c cs ih => simpa [List.isPrefixOf] using ih

theorem isPrefixOf_cons_ne (p : List Char) (hc c : Char) (t : List Char)
    (h : hc ≠ c) : (hc :: p).isPrefixOf (c :: t) = false := by
  simp [List.isPrefixOf, h]

theorem takeWhile_append_stop (p : Char → Bool) (xs : List Char) (y : Char)
    (ys : List Char) (hxs : ∀ c ∈ xs, p c) (hy : p y = false) :
    (xs ++ y :: ys).takeWhile p = xs := by
  induction xs with
  | nil => simp [List.takeWhile, hy]
  | cons c cs ih =>
    have hc : p c := hxs c (by simp)
    simp only [List.cons_append, List.takeWhile, hc]
    exact congrArg (c :: ·) (ih (fun d hd => hxs d (by simp [hd])))

theorem dropWhile_append_stop (p : Char → Bool) (xs : List Char) (y : Char)
    (ys : List Char) (hxs : ∀ c ∈ xs, p c) (hy : p y = false) :
    (xs ++ y :: ys).dropWhile p = y :: ys := by
  induction xs with
  | nil => simp [List.dropWhile, hy]
  | cons c cs ih =>
    have hc : p c := hxs c (by simp)
    simp only [List.cons_append, List.dropWhile, hc]
    exact ih (fun d hd => hxs d (by simp [hd]))

theorem takeWhile_all (p : Char → Bool) (xs : List Char)
    (hxs : ∀ c ∈ xs, p c) : xs.takeWhile p = xs := by
  induction xs with
  | nil => rfl
  | cons c cs ih =>
    have hc : p c := hxs c (by simp)
    simp only [List.takeWhile, hc]
    exact congrArg (c :: ·) (ih (fun d hd => hxs d (by simp [hd])))

theorem dropWhile_all (p : Char → Bool) (xs : List Char)
    (hxs : ∀ c ∈ xs, p c) : xs.dropWhile p = [] := by
  induction xs with
  | nil => rfl
  | cons c cs ih =>
    have hc : p c := hxs c (by simp)
    simp only [List.dropWhile, hc]
    exact ih (fun d hd => hxs d (by simp [hd]))

/-! ### `replaceAll` equations -/

theorem replaceAllF_congr (f1 : Nat) :
    ∀ (f2 : Nat) (l pat rep : List Char), l.length ≤ f1 → l.length ≤ f2 →
      replaceAllF f1 l pat rep = replaceAllF f2 l pat rep := by
  induction f1 with
  | zero =>
    intro f2 l pat rep h1 _
    have : l = [] := List.eq_nil_of_length_eq_zero (Nat.le_zero.mp h1)
    subst this
    cases f2 <;> rfl
  | succ f ih =>
    intro f2 l pat rep h1 h2
    cases l with
    | nil => cases f2 <;> rfl
    | cons c cs =>
      cases f2 with
      | zero => exact absurd h2 (by simp)
      | succ f2' =>
        simp only [replaceAllF]
        by_cases h : pat ≠ [] ∧ pat.isPrefixOf (c :: cs)
        · simp only [if_pos h]
          have hp : 0 < pat.length := List.length_pos.mpr h.1
          have hd : ((c :: cs).drop pat.length).length ≤ f := by
            simp only [List.length_drop, List.length_cons]
            have := Nat.succ_le_succ_iff.mp h1
            omega
          have hd2 : ((c :: cs).drop pat.length).length ≤ f2' := by
            simp only [List.length_drop, List.length_cons]
            have := Nat.succ_le_succ_iff.mp h2
            omega
          rw [ih f2' _ pat rep hd hd2]
        · simp only [if_neg h]
          have hc1 : cs.length ≤ f := Nat.succ_le_succ_iff.mp h1
          have hc2 : cs.length ≤ f2' := Nat.succ_le_succ_iff.mp h2
          rw [ih f2' cs pat rep hc1 hc2]

theorem replaceAll_nil (pat rep : List Char) : replaceAll [] pat rep = [] := rfl

theorem replaceAll_cons (c : Char) (cs pat rep : List Char) :
    replaceAll (c :: cs) pat rep =
      if pat ≠ [] ∧ pat.isPrefixOf (c :: cs) then
        rep ++ replaceAll ((c :: cs).drop pat.length) pat rep
      else c :: replaceAll cs pat rep := by
  show replaceAllF (cs.length + 1) (c :: cs) pat rep = _
  simp only [replaceAllF]
  by_cases h : pat ≠ [] ∧ pat.isPrefixOf (c :: cs)
  · simp only [if_pos h]
    have hp : 0 < pat.length := List.length_pos.mpr h.1
    have hd : ((c :: cs).drop pat.length).length ≤ cs.length := by
      simp only [List.length_drop, List.length_cons]
      omega
    rw [replaceAllF_congr cs.length ((c :: cs).drop pat.length).length _ pat rep
      hd (Nat.le_refl _)]
    rfl
  · simp only [if_neg h]
    rfl

/-- An occurrence of a pattern starting with `hc` cannot begin inside a
region free of `hc`: replacement passes it through. -/
theorem replaceAll_append_free (hc : Char) (pt xs ys rep : List Char)
    (hxs : hc ∉ xs) :
    replaceAll (xs ++ ys) (hc :: pt) rep = xs ++ replaceAll ys (hc :: pt) rep := by
  induction xs with
  | nil => rfl
  | cons c cs ih =>
    have hne : hc ≠ c := fun h => hxs (by simp [h])
    rw [List.cons_append, replaceAll_cons]
    rw [if_neg (by simp [isPrefixOf_cons_ne _ _ _ _ hne])]
    exact congrArg (c :: ·) (ih (fun h => hxs (by simp [h])))

/-- Replacement consumes an exact occurrence of the pattern. -/
theorem replaceAll_exact (pat ys rep : List Char) (hpat : pat ≠ []) :
    replaceAll (pat ++ ys) pat rep = rep ++ replaceAll ys pat rep := by
  cases pat with
  | nil => exact absurd rfl hpat
  | cons p ps =>
    rw [List.cons_append, replaceAll_cons]
    rw [if_pos ⟨by simp, by simpa using isPrefixOf_append_self (p :: ps) ys⟩]
    congr 1
    have : (p :: (ps ++ ys)).drop (p :: ps).length = ys := by
      simpa using List.drop_left (p :: ps) ys
    rw [this]

/-- A pattern starting with `hc` never matches inside an `hc`-free list. -/
theorem replaceAll_free (hc : Char) (pt xs rep : List Char) (hxs : hc ∉ xs) :
    replaceAll xs (hc :: pt) rep = xs := by
  have := replaceAll_append_free hc pt xs [] rep hxs
  simpa [replaceAll_nil] using this

/-! ### `withExtRemoved`, suffix and strip lemmas -/

/-- Appending a `.md` extension and removing the extension is the identity,
provided the path's final component is nonempty. -/
theorem withExtRemoved_md (l : List Char)
    (h : l.reverse.takeWhile (fun c => c ≠ '/') ≠ []) :
    withExtRemoved ⟨l ++ ".md".data⟩ = ⟨l⟩ := by
  have hrev : (l ++ ".md".data).reverse = 'd' :: 'm' :: '.' :: l.reverse := by
    rw [List.reverse_append]
    rfl
  unfold withExtRemoved
  simp only [hrev]
  have htake : ('d' :: 'm' :: '.' :: l.reverse).takeWhile (fun c => decide (c ≠ '/')) =
      'd' :: 'm' :: '.' :: l.reverse.takeWhile (fun c => decide (c ≠ '/')) := by
    simp [List.takeWhile]
  have hdrop : ('d' :: 'm' :: '.' :: l.reverse).dropWhile (fun c => decide (c ≠ '/')) =
      l.reverse.dropWhile (fun c => decide (c ≠ '/')) := by
    simp [List.dropWhile]
  simp only [htake, hdrop]
  have hstep : revDropExt ('d' :: 'm' :: '.' ::
      l.reverse.takeWhile (fun c => decide (c ≠ '/'))) =
      some (l.reverse.takeWhile (fun c => decide (c ≠ '/'))) := by
    have ht : (l.reverse.takeWhile (fun c => decide (c ≠ '/'))).isEmpty = false := by
      rw [Bool.eq_false_iff]
      intro hx
      exact h (List.isEmpty_iff.mp hx)
    have hd : revDropExt ('d' :: 'm' :: '.' ::
        l.reverse.takeWhile (fun c => decide (c ≠ '/'))) =
        if (l.reverse.takeWhile (fun c => decide (c ≠ '/'))).isEmpty then none
        else some (l.reverse.takeWhile (fun c => decide (c ≠ '/'))) := rfl
    rw [hd, ht]
    rw [if_neg (by decide : ¬ (false = true))]
  rw [hstep]
  show String.mk ((l.reverse.takeWhile (fun c => decide (c ≠ '/')) ++
      l.reverse.dropWhile (fun c => decide (c ≠ '/'))).reverse) = String.mk l
  rw [List.takeWhile_append_dropWhile, List.reverse_reverse]

/-- Key suffix lemma: in a string of the form `vr.reverse ++ "/" ++ …` with
`vr` slash-free, a suffix pattern `p ++ "/"` (with `p` slash-free) matches
exactly when `vr = p`. -/
theorem isPrefixOf_slash_block (p : List Char) (hp : '/' ∉ p) :
    ∀ (vr dr : List Char), '/' ∉ vr →
      ((p ++ ['/']).isPrefixOf (vr ++ '/' :: dr) = true ↔ vr = p) := by
  induction p with
  | nil =>
    intro vr dr hv
    cases vr with
    | nil => simp [List.isPrefixOf]
    | cons c cs =>
      have hc : ¬ ('/' : Char) = c := fun h => hv (by simp [← h])
      simp [List.isPrefixOf, hc]
  | cons a p' ih =>
    intro vr dr hv
    have ha : a ≠ '/' := fun h => hp (by simp [h])
    cases vr with
    | nil =>
      have : ¬ (a = '/') := ha
      simp [List.isPrefixOf, this]
    | cons c cs =>
      have hp' : '/' ∉ p' := fun h => hp (by simp [h])
      have hcs : '/' ∉ cs := fun h => hv (by simp [h])
      simp only [List.cons_append, List.isPrefixOf, Bool.and_eq_true, beq_iff_eq,
        List.cons.injEq]
      constructor
      · rintro ⟨h1, h2⟩
        exact ⟨h1.symm, (ih hp' cs dr hcs).mp h2⟩
      · rintro ⟨h1, h2⟩
        exact ⟨h1.symm, (ih hp' cs dr hcs).mpr h2⟩

/-- `strEndsWith … "/index"` on `dir ++ "/" ++ v` with `v` slash-free holds
exactly when `v = "index"`. -/
theorem strEndsWith_dir_slash (dir v : String) (hv : '/' ∉ v.data) :
    strEndsWith ⟨dir.data ++ '/' :: v.data⟩ "/index" = true ↔ v = "index" := by
  unfold strEndsWith
  have hrev : (dir.data ++ '/' :: v.data).reverse =
      v.data.reverse ++ '/' :: dir.data.reverse := by
    rw [List.reverse_append, List.reverse_cons]
    rw [List.append_assoc]
    rfl
  have hsuf : ("/index" : String).data.reverse = "index".data.reverse ++ ['/'] := by
    decide
  show (("/index" : String).data.reverse).isPrefixOf
      ((dir.data ++ '/' :: v.data).reverse) = true ↔ v = "index"
  rw [hrev, hsuf]
  have hvr : '/' ∉ v.data.reverse := fun h => hv (List.mem_reverse.mp h)
  rw [isPrefixOf_slash_block "index".data.reverse (by decide) v.data.reverse
    dir.data.reverse hvr]
  constructor
  · intro h
    exact strDataInj (List.reverse_inj.mp h)
  · intro h
    rw [h]

/-- Stripping the `/index` suffix from `d ++ "/index"`. -/
theorem stripSlashIndex_append (d : List Char) :
    stripSlashIndex ⟨d ++ "/index".data⟩ = ⟨d⟩ := by
  unfold stripSlashIndex strEndsWith
  have hrev : (d ++ "/index".data).reverse = "/index".data.reverse ++ d.reverse := by
    rw [List.reverse_append]
  have hpre : (("/index" : String).data.reverse).isPrefixOf
      ((d ++ "/index".data).reverse) = true := by
    show ("/index".data.reverse).isPrefixOf ((d ++ "/index".data).reverse) = true
    rw [hrev]
    exact isPrefixOf_append_self _ _
  simp only [hrev] at hpre ⊢
  rw [if_pos hpre]
  have h6 : ("/index".data.reverse ++ d.reverse).drop 6 = d.reverse := by
    have : ("/index" : String).data.reverse.length = 6 := by decide
    rw [← this, List.drop_left]
  rw [h6, List.reverse_reverse]

/-- A string containing a slash is not `"index"`. -/
theorem ne_index_of_slash {s : String} (h : '/' ∈ s.data) : s ≠ "index" := by
  intro he
  rw [he] at h
  exact absurd h (by decide)

/-! ### Trim and join lemmas (toolkit for `url_to_output_path`) -/

theorem ltrimSlash_head_not_slash (l : List Char) :
    (ltrimSlash l).head? ≠ some '/' := by
  induction l with
  | nil => simp [ltrimSlash]
  | cons c cs ih =>
    by_cases h : c = '/'
    · simpa [ltrimSlash, h] using ih
    · simp [ltrimSlash, h]

theorem ltrimSlash_id (l : List Char) (h : l.head? ≠ some '/') :
    ltrimSlash l = l := by
  cases l with
  | nil => rfl
  | cons c cs =>
    have : ¬ c = '/' := fun hc => h (by simp [hc])
    simp [ltrimSlash, this]

theorem ltrimSlash_getLast (l : List Char) (h : l.getLast? ≠ some '/') :
    (ltrimSlash l).getLast? ≠ some '/' := by
  induction l with
  | nil => simp [ltrimSlash]
  | cons c cs ih =>
    by_cases hc : c = '/'
    · cases cs with
      | nil => exact absurd (by simp [hc]) h
      | cons d ds =>
        have : (c :: d :: ds).getLast? = (d :: ds).getLast? := by
          simp [List.getLast?]
        rw [this] at h
        simpa [ltrimSlash, hc] using ih h
    · simpa [ltrimSlash, hc] using h

theorem trimSlash_getLast_not_slash (l : List Char) :
    (trimSlash l).getLast? ≠ some '/' := by
  unfold trimSlash
  rw [List.getLast?_reverse]
  exact ltrimSlash_head_not_slash _

theorem trimSlash_of_not_endsSlash (l : List Char) (h : l.getLast? ≠ some '/') :
    trimSlash l = ltrimSlash l := by
  unfold trimSlash
  rw [ltrimSlash_id ((ltrimSlash l).reverse)
    (by rw [List.head?_reverse]; exact ltrimSlash_getLast l h)]
  exact List.reverse_reverse _

theorem pathJoin_data (a b : String) :
    (pathJoin a b).data = joinData a.data b.data := by
  unfold pathJoin joinData
  by_cases h : a = ""
  · rw [if_pos h, if_pos (strEmptyIff.mp h)]
    rfl
  · rw [if_neg h, if_neg (fun hd => h (strEmptyIff.mpr hd))]
    by_cases hl : a.data.getLast? = some '/'
    · rw [if_pos hl, if_pos hl, String.data_append]
    · rw [if_neg hl, if_neg hl, String.data_append, String.data_append,
        List.append_assoc]

/-- `joinData`'s separator prefix is idempotent. -/
theorem joinData_pre_idem (a : List Char) :
    joinData (joinData a []) b = joinData a b := by
  unfold joinData
  by_cases h : a = []
  · simp [h]
  · rw [if_neg h]
    by_cases hl : a.getLast? = some '/'
    · simp only [if_pos hl, List.append_nil, if_neg h, if_pos hl]
    · simp only [if_neg hl, List.append_nil]
      rw [if_neg (by simp : ¬ a ++ ['/'] = []), if_pos (List.getLast?_concat a)]

/-- Reassociation: joining a non-slash-terminated component and then
`index.html` is the same as joining the combined tail. -/
theorem joinData_assoc (a c : List Char) (hc : c.getLast? ≠ some '/') :
    joinData (joinData a c) "index.html".data = joinData a (outTailData c) := by
  by_cases hce : c = []
  · rw [hce]
    rw [joinData_pre_idem]
    rfl
  · unfold outTailData
    rw [if_neg hce]
    unfold joinData
    have hne : (if a = [] then [] else if a.getLast? = some '/' then a
        else a ++ ['/']) ++ c ≠ [] := by
      simp [hce]
    rw [if_neg hne]
    have hlast : ((if a = [] then [] else if a.getLast? = some '/' then a
        else a ++ ['/']) ++ c).getLast? = c.getLast? := by
      rw [List.getLast?_append]
      cases hcl : c.getLast? with
      | none => exact absurd (List.getLast?_eq_none_iff.mp hcl) hce
      | some x => rfl
    rw [hlast, if_neg hc, List.append_assoc, List.append_assoc]
    have : ('/' :: "index.html".data : List Char) = "/index.html".data := by decide
    rw [List.singleton_append, this]

/-- Normal form of `url_to_output_path`: the output is the output directory
joined with a tail determined by the trailing-and-leading-slash-trimmed URL. -/
theorem url_to_output_path_data (u out : String) :
    (url_to_output_path u out).data =
      joinData out.data (outTailData (trimSlash u.data)) := by
  unfold url_to_output_path
  by_cases h1 : u = "/"
  · rw [if_pos h1, pathJoin_data]
    have : trimSlash (("/" : String).data) = [] := by decide
    rw [h1, this]
    rfl
  · rw [if_neg h1]
    by_cases h2 : endsSlash u = true
    · rw [if_pos h2, pathJoin_data, pathJoin_data]
      show joinData (joinData out.data (trimSlash u.data)) "index.html".data = _
      exact joinData_assoc out.data (trimSlash u.data)
        (trimSlash_getLast_not_slash u.data)
    · rw [if_neg h2, pathJoin_data, pathJoin_data]
      have hlast : u.data.getLast? ≠ some '/' := by
        intro hx
        exact h2 (by simpa [endsSlash] using hx)
      show joinData (joinData out.data (ltrimSlash u.data)) "index.html".data = _
      rw [trimSlash_of_not_endsSlash u.data hlast]
      exact joinData_assoc out.data (ltrimSlash u.data)
        (ltrimSlash_getLast u.data hlast)

theorem getLast?_ne_slash_of_not_mem {l : List Char} (h : '/' ∉ l) :
    l.getLast? ≠ some '/' := by
  intro hx
  rcases List.mem_getLast?_eq_getLast (Option.mem_def.mpr hx) with ⟨hne, heq⟩
  exact h (heq ▸ List.getLast_mem hne)

theorem head?_ne_slash_of_not_mem {l : List Char} (h : '/' ∉ l) :
    l.head? ≠ some '/' := by
  intro hx
  have := List.eq_cons_of_mem_head? (Option.mem_def.mpr hx)
  rw [this] at h
  exact h (by simp)

theorem trimSlash_wrap (d : List Char) (hne : d ≠ []) (hd : '/' ∉ d) :
    trimSlash ('/' :: (d ++ ['/'])) = d := by
  unfold trimSlash
  have h1 : ltrimSlash ('/' :: (d ++ ['/'])) = d ++ ['/'] := by
    rw [show ltrimSlash ('/' :: (d ++ ['/'])) = ltrimSlash (d ++ ['/']) by
      simp [ltrimSlash]]
    apply ltrimSlash_id
    cases d with
    | nil => exact absurd rfl hne
    | cons c cs =>
      have : c ≠ '/' := fun h => hd (by simp [h])
      simp [this]
  rw [h1, List.reverse_append]
  show (ltrimSlash ('/' :: d.reverse)).reverse = d
  rw [show ltrimSlash ('/' :: d.reverse) = ltrimSlash d.reverse by simp [ltrimSlash]]
  rw [ltrimSlash_id d.reverse
    (by rw [List.head?_reverse]; exact getLast?_ne_slash_of_not_mem hd)]
  exact List.reverse_reverse d

theorem trimSlash_leading (p : List Char) (hhead : p.head? ≠ some '/')
    (hlast : p.getLast? ≠ some '/') : trimSlash ('/' :: p) = p := by
  unfold trimSlash
  rw [show ltrimSlash ('/' :: p) = ltrimSlash p by simp [ltrimSlash],
    ltrimSlash_id p hhead,
    ltrimSlash_id p.reverse (by rw [List.head?_reverse]; exact hlast)]
  exact List.reverse_reverse p

theorem outTailData_inj {c1 c2 : List Char} (h : outTailData c1 = outTailData c2) :
    c1 = c2 := by
  unfold outTailData at h
  by_cases h1 : c1 = [] <;> by_cases h2 : c2 = []
  · rw [h1, h2]
  · rw [if_pos h1, if_neg h2] at h
    have := congrArg List.length h
    simp [List.length_append] at this
  · rw [if_neg h1, if_pos h2] at h
    have := congrArg List.length h
    simp [List.length_append] at this
  · rw [if_neg h1, if_neg h2] at h
    exact List.append_cancel_right h

theorem joinData_cancel {a b1 b2 : List Char}
    (h : joinData a b1 = joinData a b2) : b1 = b2 :=
  List.append_cancel_left h

/-- C1 (amended).  The output mapping of `url_to_output_path` is: URL `/` to
`index.html`, URL `/<dir>/` to `<dir>/index.html`, any other URL `/<path>`
to `<path>/index.html` under the output directory; and the function is
injective on any URL collection whose members stay distinct after trimming
leading and trailing slashes (the amendment: a well-formed site must not
contain two URLs that differ only in slash trimming, such as `/blog` and
`/blog/`, which the original claim's universal distinctness would wrongly
cover). -/
theorem url_to_output_path_spec :
    (∀ out : String, url_to_output_path "/" out = pathJoin out "index.html") ∧
    (∀ out d : String, d.data ≠ [] → '/' ∉ d.data →
      url_to_output_path ("/" ++ d ++ "/") out = pathJoin out (d ++ "/index.html")) ∧
    (∀ out p : String, p.data ≠ [] → p.data.head? ≠ some '/' →
      p.data.getLast? ≠ some '/' →
      url_to_output_path ("/" ++ p) out = pathJoin out (p ++ "/index.html")) ∧
    (∀ out u1 u2 : String, strTrimSlash u1 ≠ strTrimSlash u2 →
      url_to_output_path u1 out ≠ url_to_output_path u2 out) := by
  refine ⟨fun out => ?_, fun out d hne hd => ?_, fun out p hne hh hl => ?_,
    fun out u1 u2 hne heq => ?_⟩
  · apply strDataInj
    rw [url_to_output_path_data, pathJoin_data]
    rw [show trimSlash (("/" : String).data) = [] from by decide]
    rfl
  · apply strDataInj
    rw [url_to_output_path_data, pathJoin_data]
    have hdata : ("/" ++ d ++ "/" : String).data = '/' :: (d.data ++ ['/']) := by
      rw [String.data_append, String.data_append]
      rfl
    rw [hdata, trimSlash_wrap d.data hne hd]
    unfold outTailData
    rw [if_neg hne, String.data_append]
  · apply strDataInj
    rw [url_to_output_path_data, pathJoin_data]
    have hdata : ("/" ++ p : String).data = '/' :: p.data := by
      rw [String.data_append]
      rfl
    rw [hdata, trimSlash_leading p.data hh hl]
    unfold outTailData
    rw [if_neg hne, String.data_append]
  · apply hne
    have h2 := congrArg String.data heq
    rw [url_to_output_path_data, url_to_output_path_data] at h2
    have h3 := outTailData_inj (joinData_cancel h2)
    exact congrArg String.mk h3

/-- C1 counterexample to the unrestricted claim: the distinct page URLs
`/blog` (from `blog.md`) and `/blog/` (from `blog/index.md`) — both
producible by one site — map to the same output path. -/
theorem url_to_output_path_counterexample :
    convert_file_path_to_url "blog.md" = "/blog" ∧
    convert_file_path_to_url "blog/index.md" = "/blog/" ∧
    ("/blog" : String) ≠ "/blog/" ∧
    url_to_output_path "/blog" "dist" = url_to_output_path "/blog/" "dist" := by
  refine ⟨by decide, by decide, by decide, by decide⟩

/-- Witness: C1's amended theorem applied at concrete inputs. -/
theorem url_to_output_path_spec_witness :
    url_to_output_path ("/" ++ "blog" ++ "/") "dist" =
      pathJoin "dist" ("blog" ++ "/index.html") ∧
    url_to_output_path ("/" ++ "about") "dist" =
      pathJoin "dist" ("about" ++ "/index.html") ∧
    url_to_output_path "/about" "dist" ≠ url_to_output_path "/blog/" "dist" :=
  ⟨url_to_output_path_spec.2.1 "dist" "blog" (by decide) (by decide),
   url_to_output_path_spec.2.2.1 "dist" "about" (by decide) (by decide) (by decide),
   url_to_output_path_spec.2.2.2 "dist" "/about" "/blog/" (by decide)⟩

/-! ### C6: scanner URL conversion -/

/-- C6.  `convert_file_path_to_url` follows the three-way rule: `index.md`
at the tree root maps to `/`; `<dir>/index.md` maps to `/<dir>/` with a
trailing slash; any other `<path>.md` (a markdown file with a nonempty name,
whose stripped path is not `index` and does not end in `/index`) maps to
`/<path>` with the extension removed and no trailing slash. -/
theorem convert_file_path_to_url_spec :
    (convert_file_path_to_url "index.md" = "/") ∧
    (∀ dir : String, convert_file_path_to_url (dir ++ "/index.md") =
      "/" ++ dir ++ "/") ∧
    (∀ p : String, p.data.reverse.takeWhile (fun c => c ≠ '/') ≠ [] →
      p ≠ "index" → strEndsWith p "/index" = false →
      convert_file_path_to_url (p ++ ".md") = "/" ++ p) := by
  refine ⟨by decide, fun dir => ?_, fun p hcomp hidx hends => ?_⟩
  · have hsplit : (dir ++ "/index.md" : String) =
        ⟨(dir.data ++ "/index".data) ++ ".md".data⟩ := by
      apply strDataInj
      rw [String.data_append, List.append_assoc]
      rfl
    have hcomp : (dir.data ++ "/index".data).reverse.takeWhile
        (fun c => decide (c ≠ '/')) ≠ [] := by
      rw [List.reverse_append]
      rw [show ("/index" : String).data.reverse = 'x' :: "edni/".data from by decide]
      simp [List.takeWhile]
    rw [hsplit]
    unfold convert_file_path_to_url urlFromPathStr
    rw [withExtRemoved_md _ hcomp]
    have hmem : '/' ∈ (dir.data ++ "/index".data) := by
      apply List.mem_append_right
      decide
    rw [if_neg (ne_index_of_slash hmem)]
    have hend : strEndsWith ⟨dir.data ++ "/index".data⟩ "/index" = true := by
      unfold strEndsWith
      show ("/index".data.reverse).isPrefixOf
        ((dir.data ++ "/index".data).reverse) = true
      rw [List.reverse_append]
      exact isPrefixOf_append_self _ _
    rw [if_pos hend, stripSlashIndex_append]
  · have hsplit : (p ++ ".md" : String) = ⟨p.data ++ ".md".data⟩ := by
      apply strDataInj
      rw [String.data_append]
    rw [hsplit]
    unfold convert_file_path_to_url urlFromPathStr
    rw [withExtRemoved_md _ hcomp]
    show (if (⟨p.data⟩ : String) = "index" then "/"
      else if strEndsWith ⟨p.data⟩ "/index" = true then
        "/" ++ stripSlashIndex ⟨p.data⟩ ++ "/"
      else "/" ++ ⟨p.data⟩) = "/" ++ p
    have hp : (⟨p.data⟩ : String) = p := rfl
    rw [hp, if_neg hidx, hends]
    rw [if_neg (by decide : ¬ (false = true))]

/-- Witness: C6's theorem applied at concrete inputs. -/
theorem convert_file_path_to_url_spec_witness :
    convert_file_path_to_url ("blog" ++ "/index.md") = "/" ++ "blog" ++ "/" ∧
    convert_file_path_to_url ("blog/post" ++ ".md") = "/" ++ "blog/post" :=
  ⟨convert_file_path_to_url_spec.2.1 "blog",
   convert_file_path_to_url_spec.2.2 "blog/post" (by decide) (by decide)
     (by decide)⟩

/-! ### C4: dynamic URL generation vs. substitute-then-convert -/

/-- C4 counterexample to the unrestricted claim: with the empty resolved
value, the code (extension stripped before substitution) yields `/blog/`,
while substituting in the full source path and converting yields `/blog/.md`
(the substituted file name `.md` has no extension to strip). -/
theorem generate_dynamic_url_counterexample :
    generate_dynamic_url "blog/[tag].md" "tag" (.str "") = "/blog/" ∧
    convert_file_path_to_url
        ⟨replaceAll "blog/[tag].md".data "[tag]".data (yaml_value_to_string (.str "")).data⟩ =
      "/blog/.md" ∧
    ("/blog/" : String) ≠ "/blog/.md" := by
  refine ⟨by decide, by decide, by decide⟩

theorem takeWhile_ne_slash_of_head {c : Char} (rest : List Char)
    (hc : c ≠ '/') : (c :: rest).takeWhile (fun x => decide (x ≠ '/')) ≠ [] := by
  simp [List.takeWhile, hc]

/-- C4 (amended).  For a source path of the scanner's dynamic shape
`<dir>/[<name>].md` with a bracket-free directory, and every resolved value
whose stringification is nonempty and slash-free, `generate_dynamic_url`
equals `convert_file_path_to_url` applied to the source path with the
placeholder substituted. -/
theorem generate_dynamic_url_refines_convert (dir name : String) (v : YamlValue)
    (hdir : '[' ∉ dir.data)
    (hv1 : (yaml_value_to_string v).data ≠ [])
    (hv2 : '/' ∉ (yaml_value_to_string v).data) :
    generate_dynamic_url (dir ++ "/[" ++ name ++ "].md") name v =
      convert_file_path_to_url
        ⟨replaceAll (dir ++ "/[" ++ name ++ "].md").data
          ("[" ++ name ++ "]").data (yaml_value_to_string v).data⟩ := by
  set vs := yaml_value_to_string v with hvs
  set pat : List Char := '[' :: (name.data ++ [']']) with hpat
  have hpatdata : ("[" ++ name ++ "]" : String).data = pat := by
    rw [String.data_append, String.data_append]
    simp [hpat]
  have hsrc : (dir ++ "/[" ++ name ++ "].md" : String).data =
      ((dir.data ++ ['/']) ++ pat) ++ ".md".data := by
    rw [String.data_append, String.data_append, String.data_append]
    simp [hpat]
  have hxs : '[' ∉ dir.data ++ ['/'] := by
    intro h
    rcases List.mem_append.mp h with h | h
    · exact hdir h
    · simp at h
  -- the stem of the source path
  have hstem : withExtRemoved (dir ++ "/[" ++ name ++ "].md") =
      ⟨(dir.data ++ ['/']) ++ pat⟩ := by
    have : (dir ++ "/[" ++ name ++ "].md" : String) =
        ⟨((dir.data ++ ['/']) ++ pat) ++ ".md".data⟩ := strDataInj hsrc
    rw [this]
    apply withExtRemoved_md
    have : ((dir.data ++ ['/']) ++ pat).reverse =
        ']' :: (name.data.reverse ++ ('[' :: ('/' :: dir.data.reverse))) := by
      simp [hpat, List.reverse_append]
    rw [this]
    exact takeWhile_ne_slash_of_head _ (by decide)
  -- substitution in the stem
  have hsubstem : replaceAll ((dir.data ++ ['/']) ++ pat) pat vs.data =
      (dir.data ++ ['/']) ++ vs.data := by
    rw [show ((dir.data ++ ['/']) ++ pat) = ((dir.data ++ ['/']) ++ (pat ++ []))
        from by simp]
    rw [hpat]
    rw [replaceAll_append_free '[' (name.data ++ [']']) _ _ _ hxs]
    rw [replaceAll_exact _ _ _ (by simp)]
    simp [replaceAll_nil]
  -- substitution in the full path
  have hsubfull : replaceAll (((dir.data ++ ['/']) ++ pat) ++ ".md".data) pat vs.data =
      ((dir.data ++ ['/']) ++ vs.data) ++ ".md".data := by
    rw [List.append_assoc, hpat]
    rw [replaceAll_append_free '[' (name.data ++ [']']) _ _ _ hxs]
    rw [replaceAll_exact _ _ _ (by simp)]
    rw [replaceAll_free '[' _ _ _ (by decide)]
    simp
  -- the converted substituted path has the same stem
  have hconv : withExtRemoved ⟨((dir.data ++ ['/']) ++ vs.data) ++ ".md".data⟩ =
      ⟨(dir.data ++ ['/']) ++ vs.data⟩ := by
    apply withExtRemoved_md
    have : ((dir.data ++ ['/']) ++ vs.data).reverse =
        vs.data.reverse ++ ('/' :: dir.data.reverse) := by
      simp [List.reverse_append]
    rw [this]
    cases hv : vs.data.reverse with
    | nil => exact absurd (by simpa using List.reverse_eq_nil_iff.mp hv) hv1
    | cons c cs =>
      have hcmem : c ∈ vs.data := by
        have : c ∈ vs.data.reverse := by rw [hv]; simp
        exact List.mem_reverse.mp this
      have hc : c ≠ '/' := fun h => hv2 (h ▸ hcmem)
      rw [List.cons_append]
      exact takeWhile_ne_slash_of_head _ hc
  -- combine
  have hL : generate_dynamic_url (dir ++ "/[" ++ name ++ "].md") name v =
      urlFromPathStr ⟨(dir.data ++ ['/']) ++ vs.data⟩ := by
    unfold generate_dynamic_url
    rw [hstem]
    show urlFromPathStr ⟨replaceAll (dir.data ++ ['/'] ++ pat)
        ("[" ++ name ++ "]").data (yaml_value_to_string v).data⟩ =
      urlFromPathStr ⟨dir.data ++ ['/'] ++ vs.data⟩
    rw [hpatdata, ← hvs]
    exact congrArg urlFromPathStr (congrArg String.mk hsubstem)
  have hR : convert_file_path_to_url
      ⟨replaceAll (dir ++ "/[" ++ name ++ "].md").data
        ("[" ++ name ++ "]").data vs.data⟩ =
      urlFromPathStr ⟨(dir.data ++ ['/']) ++ vs.data⟩ := by
    unfold convert_file_path_to_url
    have harg : (⟨replaceAll (dir ++ "/[" ++ name ++ "].md").data
        ("[" ++ name ++ "]").data vs.data⟩ : String) =
        ⟨((dir.data ++ ['/']) ++ vs.data) ++ ".md".data⟩ := by
      apply congrArg String.mk
      rw [hsrc, hpatdata]
      exact hsubfull
    rw [harg, hconv]
  exact hL.trans hR.symm

/-- Witness: C4's amended theorem applied at a concrete input. -/
theorem generate_dynamic_url_refines_convert_witness :
    generate_dynamic_url ("blog" ++ "/[" ++ "tag" ++ "].md") "tag" (.str "rust") =
      convert_file_path_to_url
        ⟨replaceAll ("blog" ++ "/[" ++ "tag" ++ "].md" : String).data
          ("[" ++ "tag" ++ "]" : String).data
          (yaml_value_to_string (.str "rust")).data⟩ :=
  generate_dynamic_url_refines_convert "blog" "tag" (.str "rust")
    (by decide) (by decide) (by decide)

/-! ### C3: dynamic page expansion -/

/-- Generic stem computation: for a source path `<dir>/[<name>].md` with a
bracket-free directory, the URL of an expanded page is the three-way rule
applied to `dir ++ "/" ++ value-string`. -/
theorem generate_dynamic_url_stem (dir name : String) (v : YamlValue)
    (hdir : '[' ∉ dir.data) :
    generate_dynamic_url (dir ++ "/[" ++ name ++ "].md") name v =
      urlFromPathStr ⟨dir.data ++ ['/'] ++ (yaml_value_to_string v).data⟩ := by
  set vs := yaml_value_to_string v with hvs
  set pat : List Char := '[' :: (name.data ++ [']']) with hpat
  have hpatdata : ("[" ++ name ++ "]" : String).data = pat := by
    rw [String.data_append, String.data_append]
    simp [hpat]
  have hsrc : (dir ++ "/[" ++ name ++ "].md" : String).data =
      ((dir.data ++ ['/']) ++ pat) ++ ".md".data := by
    rw [String.data_append, String.data_append, String.data_append]
    simp [hpat]
  have hxs : '[' ∉ dir.data ++ ['/'] := by
    intro h
    rcases List.mem_append.mp h with h | h
    · exact hdir h
    · simp at h
  have hstem : withExtRemoved (dir ++ "/[" ++ name ++ "].md") =
      ⟨(dir.data ++ ['/']) ++ pat⟩ := by
    have : (dir ++ "/[" ++ name ++ "].md" : String) =
        ⟨((dir.data ++ ['/']) ++ pat) ++ ".md".data⟩ := strDataInj hsrc
    rw [this]
    apply withExtRemoved_md
    have : ((dir.data ++ ['/']) ++ pat).reverse =
        ']' :: (name.data.reverse ++ ('[' :: ('/' :: dir.data.reverse))) := by
      simp [hpat, List.reverse_append]
    rw [this]
    exact takeWhile_ne_slash_of_head _ (by decide)
  have hsubstem : replaceAll ((dir.data ++ ['/']) ++ pat) pat vs.data =
      (dir.data ++ ['/']) ++ vs.data := by
    rw [show ((dir.data ++ ['/']) ++ pat) = ((dir.data ++ ['/']) ++ (pat ++ []))
        from by simp]
    rw [hpat]
    rw [replaceAll_append_free '[' (name.data ++ [']']) _ _ _ hxs]
    rw [replaceAll_exact _ _ _ (by simp)]
    simp [replaceAll_nil]
  unfold generate_dynamic_url
  rw [hstem]
  show urlFromPathStr ⟨replaceAll (dir.data ++ ['/'] ++ pat)
      ("[" ++ name ++ "]").data (yaml_value_to_string v).data⟩ =
    urlFromPathStr ⟨dir.data ++ ['/'] ++ vs.data⟩
  rw [hpatdata, ← hvs]
  exact congrArg urlFromPathStr (congrArg String.mk hsubstem)

/-- The three-way rule on `dir ++ "/" ++ v` with `v` slash-free and not
`index` just prepends the leading slash. -/
theorem urlFromPathStr_dir_slash (dir v : String) (hv2 : '/' ∉ v.data)
    (hv3 : v ≠ "index") :
    urlFromPathStr ⟨dir.data ++ '/' :: v.data⟩ = "/" ++ dir ++ "/" ++ v := by
  unfold urlFromPathStr
  have hmem : '/' ∈ dir.data ++ '/' :: v.data := by
    apply List.mem_append_right
    simp
  rw [if_neg (ne_index_of_slash hmem)]
  rw [if_neg (fun hx => hv3 ((strEndsWith_dir_slash dir v hv2).mp hx))]
  apply strDataInj
  rw [String.data_append, String.data_append, String.data_append]
  show '/' :: (dir.data ++ '/' :: v.data) = (('/' :: dir.data) ++ ['/']) ++ v.data
  simp

/-- The full URL formula for expanded dynamic pages under the amended
hypotheses. -/
theorem generate_dynamic_url_formula (dir name : String) (v : YamlValue)
    (hdir : '[' ∉ dir.data)
    (hv2 : '/' ∉ (yaml_value_to_string v).data)
    (hv3 : yaml_value_to_string v ≠ "index") :
    generate_dynamic_url (dir ++ "/[" ++ name ++ "].md") name v =
      "/" ++ dir ++ "/" ++ yaml_value_to_string v := by
  rw [generate_dynamic_url_stem dir name v hdir]
  have : (⟨dir.data ++ ['/'] ++ (yaml_value_to_string v).data⟩ : String) =
      ⟨dir.data ++ '/' :: (yaml_value_to_string v).data⟩ := by
    apply congrArg String.mk
    simp
  rw [this]
  exact urlFromPathStr_dir_slash dir (yaml_value_to_string v) hv2 hv3

/-- C3 counterexample to the unrestricted claim: a definition whose two
resolved values coincide produces two records with the *same* URL, so the
"N resulting URLs are pairwise distinct" clause fails in general. -/
theorem expand_dynamic_pages_counterexample :
    ((expand_dynamic_pages
        [⟨"tag", "blog/[tag].md", [.str "a", .str "a"], .map []⟩]).map
      (fun p => p.url) = ["/blog/a", "/blog/a"]) ∧
    (expand_dynamic_pages
        [⟨"tag", "blog/[tag].md", [.str "a", .str "a"], .map []⟩]).length = 2 ∧
    ¬ ((expand_dynamic_pages
        [⟨"tag", "blog/[tag].md", [.str "a", .str "a"], .map []⟩]).map
      (fun p => p.url)).Nodup := by
  refine ⟨by rfl, by rfl, by decide⟩

/-- C3 (amended).  Expansion of a definition with N resolved values produces
exactly N PageRecords, in order: the k-th record's URL is generated from the
k-th value and its frontmatter is the definition's frontmatter with the
value inserted under the parameter's key; the N URLs are pairwise distinct
provided the values' stringifications are pairwise distinct, slash-free and
not the reserved stem `index`, and the source directory is bracket-free
(the amendment: distinctness is not unconditional — equal stringifications
collide); the `blog/[tag].md` with `tag: [a, b, c]` scenario yields exactly
`/blog/a`, `/blog/b`, `/blog/c` through the load pipeline. -/
theorem expand_dynamic_pages_spec :
    (∀ d : DynamicPageDef,
      (expand_dynamic_pages [d]).length = d.param_values.length) ∧
    (∀ d : DynamicPageDef,
      (expand_dynamic_pages [d]).map (fun p => p.url) =
        d.param_values.map (generate_dynamic_url d.source_path d.param_name)) ∧
    (∀ (d : DynamicPageDef) (m : List (YamlValue × YamlValue)),
      d.frontmatter = .map m →
      (expand_dynamic_pages [d]).map (fun p => p.frontmatter) =
        d.param_values.map (fun v => .map (mapInsert m (.str d.param_name) v))) ∧
    (∀ (dir name : String) (values : List YamlValue) (fm : YamlValue),
      '[' ∉ dir.data →
      (∀ v ∈ values, '/' ∉ (yaml_value_to_string v).data ∧
        yaml_value_to_string v ≠ "index") →
      (values.map yaml_value_to_string).Nodup →
      ((expand_dynamic_pages
          [⟨name, dir ++ "/[" ++ name ++ "].md", values, fm⟩]).map
        (fun p => p.url)).Nodup) ∧
    ((loadPages (fun _ _ => .error ()) []
        [⟨"tag", "blog/[tag].md",
          .map [(.str "tag", .seq [.str "a", .str "b", .str "c"])], ""⟩]).map
      (fun r => r.2.map (fun p => p.url)) =
      .ok ["/blog/a", "/blog/b", "/blog/c"]) := by
  refine ⟨fun d => ?_, fun d => ?_, fun d m hm => ?_,
    fun dir name values fm hdir hvals hnd => ?_, by rfl⟩
  · simp [expand_dynamic_pages]
  · simp [expand_dynamic_pages, List.map_map]
  · simp [expand_dynamic_pages, List.map_map, hm]
  · have hurls : (expand_dynamic_pages
        [⟨name, dir ++ "/[" ++ name ++ "].md", values, fm⟩]).map (fun p => p.url) =
        (values.map yaml_value_to_string).map (fun s => "/" ++ dir ++ "/" ++ s) := by
      simp only [expand_dynamic_pages, List.flatMap_cons, List.flatMap_nil,
        List.append_nil, List.map_map]
      apply List.map_congr_left
      intro v hv
      show generate_dynamic_url (dir ++ "/[" ++ name ++ "].md") name v =
        "/" ++ dir ++ "/" ++ yaml_value_to_string v
      exact generate_dynamic_url_formula dir name v hdir (hvals v hv).1 (hvals v hv).2
    rw [hurls]
    apply List.Nodup.map _ hnd
    intro s1 s2 h
    have hd := congrArg String.data h
    rw [String.data_append, String.data_append] at hd
    exact strDataInj (List.append_cancel_left hd)

/-- Witness: C3's amended theorem applied at concrete inputs. -/
theorem expand_dynamic_pages_spec_witness :
    ((expand_dynamic_pages
        [⟨"tag", "blog" ++ "/[" ++ "tag" ++ "].md",
          [.str "a", .str "b"], .map []⟩]).map (fun p => p.url)).Nodup ∧
    (expand_dynamic_pages
        [(⟨"t", "x/[t].md", [.int 1, .int 2], .map []⟩ : DynamicPageDef)]).map
      (fun p => p.frontmatter) =
      [.int 1, .int 2].map (fun v => .map (mapInsert [] (.str "t") v)) :=
  ⟨expand_dynamic_pages_spec.2.2.2.1 "blog" "tag" [.str "a", .str "b"] (.map [])
      (by decide)
      (by intro v hv
          simp only [List.mem_cons, List.not_mem_nil, or_false] at hv
          rcases hv with rfl | rfl
          · exact ⟨by decide, by decide⟩
          · exact ⟨by decide, by decide⟩)
      (by decide),
   expand_dynamic_pages_spec.2.2.1 ⟨"t", "x/[t].md", [.int 1, .int 2], .map []⟩
      [] rfl⟩

/-! ### C7: static page resolution order -/

/-- C7 counterexample to the unrestricted claim: with only `index/index.md`
on disk, the empty request path (treated as `index`) is reported not-found
although the second convention `<path>/index.md` exists — the code skips the
second probe when the effective path is `index`. -/
theorem resolve_path_to_doc_counterexample :
    resolvePathToFile (fun p => p == "site/index/index.md") "site" "" = none ∧
    resolveTwoConventions (fun p => p == "site/index/index.md") "site" "" =
      some "site/index/index.md" := by
  refine ⟨by rfl, by rfl⟩

/-- C7 (amended).  For every request path, resolution tries `<path>.md`
first and `<path>/index.md` second, returning the first that exists and
not-found when neither does — except when the effective path (the empty path
defaults to `index`) is `index`, in which case only `index.md` is probed. -/
theorem resolve_path_to_doc_spec (fsExists : String → Bool)
    (site_path path : String) :
    ((if path = "" then "index" else path) ≠ "index" →
      resolvePathToFile fsExists site_path path =
        resolveTwoConventions fsExists site_path path) ∧
    ((if path = "" then "index" else path) = "index" →
      resolvePathToFile fsExists site_path path =
        (if fsExists (pathJoin site_path
            ((if path = "" then "index" else path) ++ ".md")) then
          some (pathJoin site_path
            ((if path = "" then "index" else path) ++ ".md"))
        else none)) := by
  constructor
  · intro h
    unfold resolvePathToFile resolveTwoConventions
    by_cases h1 : fsExists (pathJoin site_path
        ((if path = "" then "index" else path) ++ ".md"))
    · simp [h1, List.find?]
    · by_cases h2 : fsExists (pathJoin site_path
          ((if path = "" then "index" else path) ++ "/index.md"))
      · simp [h1, h2, h, List.find?]
      · simp [h1, h2, h, List.find?]
  · intro h
    unfold resolvePathToFile
    by_cases h1 : fsExists (pathJoin site_path
        ((if path = "" then "index" else path) ++ ".md"))
    · simp [h1]
    · simp [h1, h]

/-- Witness: C7's amended theorem applied at concrete inputs. -/
theorem resolve_path_to_doc_spec_witness :
    resolvePathToFile (fun p => p == "site/blog/index.md") "site" "blog" =
      resolveTwoConventions (fun p => p == "site/blog/index.md") "site" "blog" ∧
    resolvePathToFile (fun _ => false) "site" "" =
      (if (fun _ => false : String → Bool) (pathJoin "site"
          ((if ("" : String) = "" then "index" else "") ++ ".md")) then
        some (pathJoin "site" ((if ("" : String) = "" then "index" else "") ++ ".md"))
      else none) :=
  ⟨(resolve_path_to_doc_spec (fun p => p == "site/blog/index.md") "site"
      "blog").1 (by decide),
   (resolve_path_to_doc_spec (fun _ => false) "site" "").2 (by decide)⟩

/-! ### C5: cache-bust registry -/

theorem insert_hash_no_dot (path hash : String) (h : '.' ∉ path.data) :
    insert_hash_into_path path hash = path ++ "." ++ hash := by
  unfold insert_hash_into_path
  have hall : path.data.reverse.dropWhile (fun c => decide (c ≠ '.')) = [] := by
    apply dropWhile_all
    intro c hc
    have hmem : c ∈ path.data := List.mem_reverse.mp hc
    have : c ≠ '.' := fun he => h (he ▸ hmem)
    simp [this]
  simp only [hall]

theorem insert_hash_last_dot (a b hash : String) (hb : '.' ∉ b.data) :
    insert_hash_into_path (a ++ "." ++ b) hash =
      a ++ "." ++ hash ++ "." ++ b := by
  unfold insert_hash_into_path
  have hdata : (a ++ "." ++ b : String).data.reverse =
      b.data.reverse ++ '.' :: a.data.reverse := by
    rw [String.data_append, String.data_append, List.reverse_append,
      List.reverse_append]
    simp
  have hballr : ∀ c ∈ b.data.reverse, (fun c => decide (c ≠ '.')) c = true := by
    intro c hc
    have hmem : c ∈ b.data := List.mem_reverse.mp hc
    have : c ≠ '.' := fun he => hb (he ▸ hmem)
    simp [this]
  have hdrop : (a ++ "." ++ b : String).data.reverse.dropWhile
      (fun c => decide (c ≠ '.')) = '.' :: a.data.reverse := by
    rw [hdata]
    exact dropWhile_append_stop _ _ _ _ hballr (by simp)
  have htake : (a ++ "." ++ b : String).data.reverse.takeWhile
      (fun c => decide (c ≠ '.')) = b.data.reverse := by
    rw [hdata]
    exact takeWhile_append_stop _ _ _ _ hballr (by simp)
  simp only [hdrop, htake, List.reverse_reverse]

theorem hexEncode_length (bs : List Nat) :
    (hexEncode bs).length = 2 * bs.length := by
  induction bs with
  | nil => rfl
  | cons b rest ih =>
    simp only [hexEncode, List.flatMap_cons] at ih ⊢
    simp [ih]
    omega

theorem hexDigit_mem (n : Nat) : hexDigit n ∈ hexChars := by
  unfold hexDigit
  have hlt : n % 16 < hexChars.length := Nat.mod_lt n (by decide)
  rw [List.getD_eq_getElem hexChars '0' hlt]
  exact List.getElem_mem hlt

theorem hexEncode_mem (bs : List Nat) : ∀ c ∈ hexEncode bs, c ∈ hexChars := by
  induction bs with
  | nil => simp [hexEncode]
  | cons b rest ih =>
    intro c hc
    simp only [hexEncode, List.flatMap_cons, List.mem_append, List.mem_cons,
      List.not_mem_nil, or_false] at hc
    rcases hc with (rfl | rfl) | hc
    · exact hexDigit_mem _
    · exact hexDigit_mem _
    · exact ih c hc

/-- C5 counterexample to the claim's splice rule: the path `/v1.2/app` has
no extension in its file name (so the claim says the hash is appended), but
the code splices before the last dot of the *whole* path, inside the
directory name. -/
theorem cache_bust_counterexample :
    insert_hash_into_path "/v1.2/app" "deadbeef" = "/v1.deadbeef.2/app" ∧
    spliceBeforeExt "/v1.2/app" "deadbeef" = "/v1.2/app.deadbeef" ∧
    ("/v1.deadbeef.2/app" : String) ≠ "/v1.2/app.deadbeef" ∧
    cacheBustCall (fun _ => [0xde, 0xad, 0xbe, 0xef]) [] []
        (fun _ => some []) [] "/v1.2/app" =
      .ok ("/v1.deadbeef.2/app", [("/v1.2/app", "/v1.deadbeef.2/app")]) := by
  refine ⟨by rfl, by rfl, by decide, by rfl⟩

/-- C5 (amended).  Within one load: a call with a registered path returns
the stored alias unchanged (and touches nothing); two consecutive calls for
the same path return the identical alias and state; a first call returns
the path with `.<hash>` spliced immediately before the last `.` of the whole
path string — `/a.css` to `/a.<hash>.css` — or appended as `.<hash>` when
the path contains no dot (the amendment: the splice point is the last dot
of the whole path, not the file name's extension); the hash is the 8
lowercase-hex-character encoding of the digest's first 4 bytes. -/
theorem cache_bust_spec :
    (∀ (digest : List Nat → List Nat) (theme hl : List Nat)
        (readFile : String → Option (List Nat))
        (reg : List (String × String)) (path h : String),
      regLookup reg path = some h →
      cacheBustCall digest theme hl readFile reg path = .ok (h, reg)) ∧
    (∀ (digest : List Nat → List Nat) (theme hl : List Nat)
        (readFile : String → Option (List Nat))
        (reg : List (String × String)) (path res : String)
        (st1 : List (String × String)),
      cacheBustCall digest theme hl readFile reg path = .ok (res, st1) →
      cacheBustCall digest theme hl readFile st1 path = .ok (res, st1)) ∧
    (∀ (digest : List Nat → List Nat) (theme hl : List Nat)
        (readFile : String → Option (List Nat))
        (reg : List (String × String)) (path : String) (content : List Nat),
      regLookup reg path = none →
      (if path = "/theme.css" then some theme
        else if path = "/highlight.css" then some hl
        else readFile path) = some content →
      cacheBustCall digest theme hl readFile reg path =
        .ok (insert_hash_into_path path (compute_content_hash digest content),
          (path,
            insert_hash_into_path path (compute_content_hash digest content))
            :: reg)) ∧
    (∀ (path hash : String), '.' ∉ path.data →
      insert_hash_into_path path hash = path ++ "." ++ hash) ∧
    (∀ (a b hash : String), '.' ∉ b.data →
      insert_hash_into_path (a ++ "." ++ b) hash =
        a ++ "." ++ hash ++ "." ++ b) ∧
    (∀ (digest : List Nat → List Nat) (content : List Nat),
      4 ≤ (digest content).length →
      (compute_content_hash digest content).data.length = 8 ∧
      ∀ c ∈ (compute_content_hash digest content).data, c ∈ hexChars) := by
  refine ⟨fun digest theme hl readFile reg path h hreg => ?_,
    fun digest theme hl readFile reg path res st1 hcall => ?_,
    fun digest theme hl readFile reg path content hreg hcontent => ?_,
    insert_hash_no_dot, insert_hash_last_dot,
    fun digest content hlen => ⟨?_, ?_⟩⟩
  · unfold cacheBustCall
    rw [hreg]
  · unfold cacheBustCall at hcall ⊢
    cases hl1 : regLookup reg path with
    | some stored =>
      rw [hl1] at hcall
      obtain ⟨h1, h2⟩ : stored = res ∧ reg = st1 := by
        simpa using hcall
      rw [← h2, hl1, h1]
    | none =>
      rw [hl1] at hcall
      cases hc : (if path = "/theme.css" then some theme
          else if path = "/highlight.css" then some hl
          else readFile path) with
      | none => rw [hc] at hcall; exact absurd hcall (by simp)
      | some content =>
        rw [hc] at hcall
        obtain ⟨h1, h2⟩ :
            insert_hash_into_path path (compute_content_hash digest content) =
              res ∧
            (path, insert_hash_into_path path
              (compute_content_hash digest content)) :: reg = st1 := by
          simpa using hcall
        have : regLookup st1 path = some res := by
          rw [← h2, ← h1]
          simp [regLookup, List.find?]
        rw [this]
  · unfold cacheBustCall
    rw [hreg, hcontent]
  · unfold compute_content_hash
    show (hexEncode ((digest content).take 4)).length = 8
    rw [hexEncode_length, List.length_take]
    omega
  · intro c hc
    exact hexEncode_mem _ c hc

/-- Witness: C5's theorem applied at concrete inputs (the `/theme.css`
scenario: two calls within one load return the identical hashed alias, with
an 8-hex-character hash of the theme CSS bytes). -/
theorem cache_bust_spec_witness :
    cacheBustCall (fun _ => [0xab, 0xcd, 0x12, 0x34]) [1, 2, 3] []
        (fun _ => none) [("/theme.css", "/theme.abcd1234.css")] "/theme.css" =
      .ok ("/theme.abcd1234.css", [("/theme.css", "/theme.abcd1234.css")]) ∧
    cacheBustCall (fun _ => [0xab, 0xcd, 0x12, 0x34]) [1, 2, 3] []
        (fun _ => none) [] "/theme.css" =
      .ok (insert_hash_into_path "/theme.css"
          (compute_content_hash (fun _ => [0xab, 0xcd, 0x12, 0x34]) [1, 2, 3]),
        [("/theme.css", insert_hash_into_path "/theme.css"
          (compute_content_hash (fun _ => [0xab, 0xcd, 0x12, 0x34]) [1, 2, 3]))]) ∧
    insert_hash_into_path ("/theme" ++ "." ++ "css") "abcd1234" =
      "/theme" ++ "." ++ "abcd1234" ++ "." ++ "css" ∧
    (compute_content_hash (fun _ => [0xab, 0xcd, 0x12, 0x34]) []).data.length = 8 :=
  ⟨cache_bust_spec.1 (fun _ => [0xab, 0xcd, 0x12, 0x34]) [1, 2, 3] []
      (fun _ => none) [("/theme.css", "/theme.abcd1234.css")] "/theme.css"
      "/theme.abcd1234.css" (by rfl),
   cache_bust_spec.2.2.1 (fun _ => [0xab, 0xcd, 0x12, 0x34]) [1, 2, 3] []
      (fun _ => none) [] "/theme.css" [1, 2, 3] (by rfl) (by rfl),
   cache_bust_spec.2.2.2.2.1 "/theme" "css" "abcd1234" (by decide),
   (cache_bust_spec.2.2.2.2.2 (fun _ => [0xab, 0xcd, 0x12, 0x34]) []
      (by decide)).1⟩

/-! ### C9: scan tolerance -/

theorem scanOneFile_ne_error (parseFM : String → Option YamlValue)
    (f : ScannedFile) (e : Unit) :
    scanOneFile parseFM f ≠ some (.error e) := by
  unfold scanOneFile
  cases f.content with
  | none => simp
  | some content =>
    by_cases hd : is_dynamic_page f.relative_path = true
    · simp only [hd, if_true]
      cases extract_param_name (fileName f.relative_path) with
      | none => simp
      | some pname => simp
    · simp only [Bool.not_eq_true] at hd
      simp [hd]

theorem scan_pages_raw_isOk (parseFM : String → Option YamlValue)
    (files : List ScannedFile) :
    ∃ r, scan_pages_raw parseFM files = .ok r := by
  unfold scan_pages_raw
  induction files with
  | nil => exact ⟨⟨[], []⟩, rfl⟩
  | cons f fs ih =>
    obtain ⟨r, hr⟩ := ih
    rw [List.map_cons]
    cases hf : scanOneFile parseFM f with
    | none =>
      exact ⟨r, by simpa [collectScan] using hr⟩
    | some ep =>
      cases ep with
      | error e => exact absurd hf (scanOneFile_ne_error parseFM f e)
      | ok p =>
        cases p with
        | static pg =>
          exact ⟨⟨pg :: r.static_pages, r.raw_dynamic_defs⟩, by
            simp [collectScan, hr, Except.map]⟩
        | rawDynamic d =>
          exact ⟨⟨r.static_pages, d :: r.raw_dynamic_defs⟩, by
            simp [collectScan, hr, Except.map]⟩

/-- C9.  A scanned markdown file whose content reads but whose frontmatter
fails to parse still appears in the scan result (with the empty mapping as
frontmatter and its URL computed as usual), and the scan as a whole returns
success — the failure is recovered locally. -/
theorem scan_pages_raw_tolerant (parseFM : String → Option YamlValue)
    (files : List ScannedFile) (f : ScannedFile) (content : String)
    (hmem : f ∈ files) (hc : f.content = some content)
    (hfail : parseFM content = none)
    (hstat : is_dynamic_page f.relative_path = false) :
    ∃ r, scan_pages_raw parseFM files = .ok r ∧
      (⟨convert_file_path_to_url f.relative_path, f.relative_path,
        .map []⟩ : PageInfo) ∈ r.static_pages := by
  unfold scan_pages_raw
  induction files with
  | nil => exact absurd hmem (by simp)
  | cons g fs ih =>
    rw [List.map_cons]
    rcases List.mem_cons.mp hmem with rfl | hmem'
    · have hone : scanOneFile parseFM f = some (.ok (.static
          ⟨convert_file_path_to_url f.relative_path, f.relative_path,
            .map []⟩)) := by
        unfold scanOneFile
        rw [hc, hstat]
        simp [hfail]
      rw [hone]
      obtain ⟨r, hr⟩ := scan_pages_raw_isOk parseFM fs
      unfold scan_pages_raw at hr
      refine ⟨⟨(⟨convert_file_path_to_url f.relative_path, f.relative_path,
        .map []⟩ : PageInfo) :: r.static_pages, r.raw_dynamic_defs⟩, ?_, by simp⟩
      simp [collectScan, hr, Except.map]
    · obtain ⟨r, hr, hin⟩ := ih hmem'
      cases hg : scanOneFile parseFM g with
      | none => exact ⟨r, by simpa [collectScan, hg] using hr, hin⟩
      | some ep =>
        cases ep with
        | error e => exact absurd hg (scanOneFile_ne_error parseFM g e)
        | ok p =>
          cases p with
          | static pg =>
            exact ⟨⟨pg :: r.static_pages, r.raw_dynamic_defs⟩, by
              simp [collectScan, hr, Except.map], by simp [hin]⟩
          | rawDynamic d =>
            exact ⟨⟨r.static_pages, d :: r.raw_dynamic_defs⟩, by
              simp [collectScan, hr, Except.map], hin⟩

/-- Witness: C9's theorem applied at a concrete input. -/
theorem scan_pages_raw_tolerant_witness :
    ∃ r, scan_pages_raw (fun _ => none)
        [⟨"bad.md", some "---\nbroken: [\n---\nbody"⟩] = .ok r ∧
      (⟨convert_file_path_to_url "bad.md", "bad.md", .map []⟩ : PageInfo) ∈
        r.static_pages :=
  scan_pages_raw_tolerant (fun _ => none)
    [⟨"bad.md", some "---\nbroken: [\n---\nbody"⟩]
    ⟨"bad.md", some "---\nbroken: [\n---\nbody"⟩ "---\nbroken: [\n---\nbody"
    (by simp) rfl rfl (by decide)

/-! ### C10: frontmatter re-rendering frame property -/

mutual

theorem render_noTemplate (render : String → Except Unit String) :
    ∀ v : YamlValue, noTemplate v = true → render_yaml_value render v = .ok v
  | .null, _ => rfl
  | .bool _, _ => rfl
  | .int _, _ => rfl
  | .float _, _ => rfl
  | .str s, h => by
    have hm : hasTemplateMarker s = false := by
      have : (!hasTemplateMarker s) = true := by simpa [noTemplate] using h
      simpa using this
    unfold render_yaml_value
    rw [hm]
    simp
  | .seq items, h => by
    unfold render_yaml_value
    rw [renderSeq_noTemplate render items (by simpa [noTemplate] using h)]
    rfl
  | .map entries, h => by
    unfold render_yaml_value
    rw [renderEntries_noTemplate render entries (by simpa [noTemplate] using h)]
    rfl

theorem renderSeq_noTemplate (render : String → Except Unit String) :
    ∀ items : List YamlValue, noTemplateList items = true →
      renderYamlSeq render items = .ok items
  | [], _ => rfl
  | v :: vs, h => by
    have h12 : noTemplate v = true ∧ noTemplateList vs = true := by
      simpa [noTemplateList, Bool.and_eq_true] using h
    unfold renderYamlSeq
    rw [render_noTemplate render v h12.1, renderSeq_noTemplate render vs h12.2]
    rfl

theorem renderEntries_noTemplate (render : String → Except Unit String) :
    ∀ entries : List (YamlValue × YamlValue), noTemplateEntries entries = true →
      renderYamlEntries render entries = .ok entries
  | [], _ => rfl
  | (k, v) :: rest, h => by
    have h12 : noTemplate v = true ∧ noTemplateEntries rest = true := by
      simpa [noTemplateEntries, Bool.and_eq_true] using h
    unfold renderYamlEntries
    rw [render_noTemplate render v h12.1,
      renderEntries_noTemplate render rest h12.2]
    rfl

end

theorem renderEntries_keys (render : String → Except Unit String) :
    ∀ (entries out : List (YamlValue × YamlValue)),
      renderYamlEntries render entries = .ok out →
      out.map Prod.fst = entries.map Prod.fst := by
  intro entries
  induction entries with
  | nil =>
    intro out h
    have : out = [] := by simpa [renderYamlEntries] using h.symm
    simp [this]
  | cons e rest ih =>
    intro out h
    obtain ⟨k, v⟩ := e
    unfold renderYamlEntries at h
    cases hv : render_yaml_value render v with
    | error e' => rw [hv] at h; exact absurd h (by simp [Except.bind])
    | ok rv =>
      rw [hv] at h
      cases hrest : renderYamlEntries render rest with
      | error e' =>
        rw [hrest] at h
        exact absurd h (by simp [Except.bind, Except.map])
      | ok rr =>
        rw [hrest] at h
        have hout : out = (k, rv) :: rr := by
          simpa [Except.bind, Except.map] using h.symm
        rw [hout]
        simp [ih rr hrest]

/-- C10.  Rendering a dynamic page's frontmatter is a frame operation: every
value free of the `\x7b\x7b` / `\x7b%` markers (numbers, booleans, nulls and
plain strings, recursively through sequences and mappings) is returned
unchanged; a string containing a marker is replaced by its rendered result;
on success the mapping's keys and their order are unchanged, and non-mapping
frontmatter is passed through. -/
theorem render_frontmatter_values_frame :
    (∀ (render : String → Except Unit String) (v : YamlValue),
      noTemplate v = true → render_yaml_value render v = .ok v) ∧
    (∀ (render : String → Except Unit String) (s : String),
      hasTemplateMarker s = true →
      render_yaml_value render (.str s) = (render s).map .str) ∧
    (∀ (render : String → Except Unit String)
        (entries out : List (YamlValue × YamlValue)),
      render_frontmatter_values render (.map entries) = .ok (.map out) →
      out.map Prod.fst = entries.map Prod.fst) ∧
    (∀ (render : String → Except Unit String) (fm : YamlValue),
      (∀ entries, fm ≠ .map entries) →
      render_frontmatter_values render fm = .ok fm) := by
  refine ⟨render_noTemplate, fun render s h => ?_, fun render entries out h => ?_,
    fun render fm h => ?_⟩
  · unfold render_yaml_value
    rw [h]
    simp
  · unfold render_frontmatter_values at h
    have h' : Except.map YamlValue.map (renderYamlEntries render entries) =
        Except.ok (YamlValue.map out) := h
    cases hr : renderYamlEntries render entries with
    | error e => rw [hr] at h'; exact absurd h' (by simp [Except.map])
    | ok rr =>
      rw [hr] at h'
      have : YamlValue.map rr = YamlValue.map out := by
        simpa [Except.map] using h'
      have hrr : rr = out := by
        injection this
      exact hrr ▸ renderEntries_keys render entries rr hr
  · unfold render_frontmatter_values
    cases fm with
    | map entries => exact absurd rfl (h entries)
    | null => rfl
    | bool b => rfl
    | int n => rfl
    | float l => rfl
    | str s => rfl
    | seq items => rfl

/-- Witness: C10's theorem applied at concrete inputs. -/
theorem render_frontmatter_values_frame_witness :
    render_yaml_value (fun _ => .error ())
        (.map [(.str "title", .str "plain"), (.str "n", .int 5),
          (.str "xs", .seq [.bool true, .null])]) =
      .ok (.map [(.str "title", .str "plain"), (.str "n", .int 5),
        (.str "xs", .seq [.bool true, .null])]) ∧
    render_yaml_value (fun s => .ok (s ++ "!")) (.str "\x7b\x7b tag \x7d\x7d") =
      ((fun s : String => Except.ok (ε := Unit) (s ++ "!"))
          "\x7b\x7b tag \x7d\x7d").map .str ∧
    render_frontmatter_values (fun _ => .error ()) (.int 7) = .ok (.int 7) :=
  ⟨render_frontmatter_values_frame.1 (fun _ => .error ()) _ (by decide),
   render_frontmatter_values_frame.2.1 (fun s => .ok (s ++ "!"))
      "\x7b\x7b tag \x7d\x7d" (by decide),
   render_frontmatter_values_frame.2.2.2 (fun _ => .error ()) (.int 7)
      (fun entries h => by injection h)⟩

/-! ### C2: the `pages()` collection during dynamic resolution -/

/-- C2 counterexample to the claim's "static + already-resolved earlier
dynamic pages": with an evaluator that reports the size of the collection
the `pages()` accessor closes over, the second definition sees a collection
of size 1 (the static pages only) in the code, but would see size 2 (static
page plus the first definition's expanded page) under the claim's
description. -/
theorem evaluate_dynamic_defs_counterexample :
    ((evaluate_dynamic_defs
        (fun ps _ => .ok (if ps.length = 1 then "one" else "two"))
        [⟨"a", "x/[a].md", .map [(.str "a", .seq [.str "v"])], ""⟩,
         ⟨"b", "y/[b].md", .map [(.str "b", .str "expr")], ""⟩]
        [⟨"/", "index.md", .map []⟩]).map
      (fun ds => ds.map (fun d => d.param_values.map yaml_value_to_string)) =
      .ok [["v"], ["one"]]) ∧
    ((evaluate_dynamic_defs_accum
        (fun ps _ => .ok (if ps.length = 1 then "one" else "two"))
        [⟨"a", "x/[a].md", .map [(.str "a", .seq [.str "v"])], ""⟩,
         ⟨"b", "y/[b].md", .map [(.str "b", .str "expr")], ""⟩]
        [⟨"/", "index.md", .map []⟩]).map
      (fun ds => ds.map (fun d => d.param_values.map yaml_value_to_string)) =
      .ok [["v"], ["two"]]) ∧
    ([["v"], ["one"]] : List (List String)) ≠ [["v"], ["two"]] := by
  refine ⟨by rfl, by rfl, by decide⟩

/-- C2 (amended).  During dynamic-route resolution every definition's
expression is evaluated against the *same* static page collection — earlier
definitions' resolved pages are never visible (`evaluate_dynamic_defs` is
the static-only recursion, not the accumulating one) — and the accessor's
`within` filter keeps exactly the pages whose URL starts with the prefix
while excluding the prefix's own index page (the prefix with a trailing
slash appended unless already present); without `within` it returns the
whole collection. -/
theorem evaluate_dynamic_defs_spec :
    (∀ (evalExpr : List PageInfo → String → Except Unit String)
        (raws : List RawDynamicPageDef) (statics : List PageInfo),
      evaluate_dynamic_defs evalExpr raws statics =
        evaluate_dynamic_defs_staticOnly evalExpr raws statics) ∧
    (∀ pages : List PageInfo, pagesFunction pages none = pages) ∧
    (∀ (pages : List PageInfo) (pre : String) (page : PageInfo),
      page ∈ pagesFunction pages (some pre) ↔
        (page ∈ pages ∧ strStartsWith page.url pre = true ∧
          page.url ≠ (if endsSlash pre then pre else pre ++ "/"))) := by
  refine ⟨fun evalExpr raws statics => ?_, fun pages => rfl,
    fun pages pre page => ?_⟩
  · induction raws with
    | nil => rfl
    | cons raw rest ih =>
      unfold evaluate_dynamic_defs at ih ⊢
      unfold evaluate_dynamic_defs_staticOnly
      rw [List.mapM_cons]
      cases hv : evaluate_param_values_with_pages evalExpr raw.param_name
          raw.frontmatter statics with
      | error e => rfl
      | ok vals =>
        rw [ih]
        cases hs : evaluate_dynamic_defs_staticOnly evalExpr rest statics with
        | error e => rfl
        | ok ds => rfl
  · unfold pagesFunction
    rw [List.mem_filter]
    simp [Bool.and_eq_true, bne_iff_ne]

/-- Witness: C2's amended theorem applied at concrete inputs. -/
theorem evaluate_dynamic_defs_spec_witness :
    evaluate_dynamic_defs (fun _ _ => .ok "1")
        [⟨"a", "x/[a].md", .map [(.str "a", .str "e")], ""⟩]
        [⟨"/", "index.md", .map []⟩] =
      evaluate_dynamic_defs_staticOnly (fun _ _ => .ok "1")
        [⟨"a", "x/[a].md", .map [(.str "a", .str "e")], ""⟩]
        [⟨"/", "index.md", .map []⟩] ∧
    (⟨"/blog/x", "blog/x.md", .map []⟩ : PageInfo) ∈
      pagesFunction [⟨"/blog/", "blog/index.md", .map []⟩,
        ⟨"/blog/x", "blog/x.md", .map []⟩] (some "/blog") :=
  ⟨evaluate_dynamic_defs_spec.1 (fun _ _ => .ok "1")
      [⟨"a", "x/[a].md", .map [(.str "a", .str "e")], ""⟩]
      [⟨"/", "index.md", .map []⟩],
   (evaluate_dynamic_defs_spec.2.2 [⟨"/blog/", "blog/index.md", .map []⟩,
      ⟨"/blog/x", "blog/x.md", .map []⟩] "/blog"
      ⟨"/blog/x", "blog/x.md", .map []⟩).mpr
    ⟨by simp, by decide, by decide⟩⟩

/-! ### C8: scalar re-parsing of expression output -/

/-- C8.  Each nonempty newline-delimited line of a dynamic expression's
rendered output is trimmed and trial-parsed as an i64 integer, else as an
f64 float, else as the boolean literals `true`/`false`, else kept as a
string; in particular the `\x7b\x7b range(end=3) \x7d\x7d` expression (whose
wrapped template renders as the newline-joined `0`, `1`, `2`) resolves to
the numeric values 0, 1, 2, not strings. -/
theorem parse_scalar_spec :
    (∀ (line : String) (n : Int), parseI64 (rustTrim line) = some n →
      parseScalarLine line = .int n) ∧
    (∀ line : String, parseI64 (rustTrim line) = none →
      floatParses (rustTrim line) = true →
      parseScalarLine line = .float (rustTrim line)) ∧
    (∀ line : String, parseI64 (rustTrim line) = none →
      floatParses (rustTrim line) = false → rustTrim line = "true" →
      parseScalarLine line = .bool true) ∧
    (∀ line : String, parseI64 (rustTrim line) = none →
      floatParses (rustTrim line) = false → rustTrim line = "false" →
      parseScalarLine line = .bool false) ∧
    (∀ line : String, parseI64 (rustTrim line) = none →
      floatParses (rustTrim line) = false → rustTrim line ≠ "true" →
      rustTrim line ≠ "false" →
      parseScalarLine line = .str (rustTrim line)) ∧
    (evaluate_param_values_with_pages (fun _ _ => .ok "0\n1\n2") "tag"
        (.map [(.str "tag", .str "\x7b\x7b range(end=3) \x7d\x7d")]) [] =
      .ok [.int 0, .int 1, .int 2]) := by
  refine ⟨fun line n h => ?_, fun line h1 h2 => ?_, fun line h1 h2 h3 => ?_,
    fun line h1 h2 h3 => ?_, fun line h1 h2 h3 h4 => ?_, by rfl⟩
  · simp only [parseScalarLine]
    rw [h]
  · simp only [parseScalarLine]
    rw [h1, h2]
    rfl
  · simp only [parseScalarLine]
    rw [h1, h2, if_neg (by decide : ¬ (false = true)), if_pos h3]
  · simp only [parseScalarLine]
    rw [h1, h2, if_neg (by decide : ¬ (false = true)),
      if_neg (fun hx : rustTrim line = "true" => by
        rw [h3] at hx
        exact absurd hx (by decide)),
      if_pos h3]
  · simp only [parseScalarLine]
    rw [h1, h2, if_neg (by decide : ¬ (false = true)), if_neg h3, if_neg h4]

/-- Witness: C8's theorem applied at concrete inputs. -/
theorem parse_scalar_spec_witness :
    parseScalarLine " 42 " = .int 42 ∧
    parseScalarLine "3.5" = .float (rustTrim "3.5") ∧
    parseScalarLine "hello" = .str (rustTrim "hello") :=
  ⟨parse_scalar_spec.1 " 42 " 42 (by decide),
   parse_scalar_spec.2.1 "3.5" (by decide) (by decide),
   parse_scalar_spec.2.2.2.2.1 "hello" (by decide) (by decide) (by decide)
     (by decide)⟩

end Hugs
